import Mathlib

/-!
# Verification of `dcarr.h` — a circular-buffer array deque

Shallow embedding of the generic dynamic array (`dcarr.h`) from the repository.
The C code is a set of macros over a struct

    { elemtype *els; unsigned int cap; unsigned int off; unsigned int len; }

We model the element type as `Int` (the demo instantiates `int`), the buffer
`els` as a total function `ℕ → Int` (reads beyond the allocation return the
model value stored at that index; real C would return garbage, so any theorem
about such reads is stated only up to what the spec or claim forces), and the
three `unsigned int` fields as `ℕ`.  Where 32-bit wraparound of `unsigned int`
arithmetic can change behaviour, it is modelled explicitly with `% 2^32`
(the `cap - 1` mask in `dcarr_idx`, the `len << 2` shrink trigger, and the
wrapping subtraction `cap - _cap` in the middle branch of
`dcarr_reduce_size`).  Decrements (`--len`) are ordinary `ℕ` subtraction: all
their uses carry the C precondition `len > 0` under which `ℕ` and `unsigned`
agree.
-/

/-- The deque struct of `dcarr_define_type`: buffer, capacity, offset of the
logical first element, and number of live elements. -/
structure DcArr where
  els : ℕ → Int
  cap : ℕ
  off : ℕ
  len : ℕ

/-- Write one element into the buffer (an assignment `els[i] = v`). -/
def writeAt (els : ℕ → Int) (i : ℕ) (v : Int) : ℕ → Int :=
  fun k => if k = i then v else els k

/-- `memmove(&els[dst], &els[src], count * sizeof(elem))`: copies `count`
elements from `src` to `dst` as if through a temporary buffer (the C
`memmove` guarantee).  Also used for the `memcpy` calls of the source; at
each of those call sites the regions are disjoint whenever the call is
reached from an invariant-satisfying state, so the as-if-copy semantics is
faithful there. -/
def memmove (els : ℕ → Int) (dst src count : ℕ) : ℕ → Int :=
  fun k => if dst ≤ k ∧ k < dst + count then els (src + (k - dst)) else els k

/-- `memset(&els[dst], 0, count * sizeof(elem))`: all-zero bytes read back as
the integer 0. -/
def memset0 (els : ℕ → Int) (dst count : ℕ) : ℕ → Int :=
  fun k => if dst ≤ k ∧ k < dst + count then 0 else els k

/-- The `unsigned int` value of `(a).cap - 1`: wraps to `2^32 - 1` when
`cap = 0`, and is the ordinary `cap - 1` for `0 < cap < 2^32`. -/
def dcarr_mask (cap : ℕ) : ℕ := (cap + (2 ^ 32 - 1)) % 2 ^ 32

/-- `dcarr_idx(a, i) = ((a).off + (i)) & ((a).cap - 1)`, the physical index of
logical index `i`.  The C sum `off + i` is itself reduced mod `2^32`, but
masking with a value `< 2^32` only sees the low 32 bits, so `&&&` on `ℕ`
agrees with the C expression for `off, i < 2^32`. -/
def dcarr_idx (a : DcArr) (i : ℕ) : ℕ := (a.off + i) &&& dcarr_mask a.cap

/-- `dcarr_elem(a, i)`: the element at logical index `i`. -/
def dcarr_elem (a : DcArr) (i : ℕ) : Int := a.els (dcarr_idx a i)

/-- `dcarr_len(a)`. -/
def dcarr_len (a : DcArr) : ℕ := a.len

/-- `dcarr_init(a)`: capacity, offset and length all zero; the (absent)
buffer is modelled as all zeroes. -/
def dcarr_init : DcArr := ⟨fun _ => 0, 0, 0, 0⟩

/-- The capacity loop of `dcarr_reserve`:
`do { cap = cap >= 8 ? cap << 1 : 8; } while (len + n > cap);`
written with structural fuel so that it computes by kernel reduction.  The C
loop terminates in at most 32 iterations whenever it terminates at all
(capacities are powers of two below `2^32`; for `len + n > 2^31` the C loop
overflows and never terminates), so fuel 33 is exact for every terminating
C execution.  `target` stands for `len + n`. -/
def growCapLoop : ℕ → ℕ → ℕ → ℕ
  | 0, _, cap => cap
  | fuel + 1, target, cap =>
      let next := if 8 ≤ cap then 2 * cap else 8
      if next < target then growCapLoop fuel target next else next

/-- `dcarr_reserve(a, eltype, n)`: ensure room for `n` more elements.  When it
grows and the live range wrapped around the end of the old buffer, the source
moves `cap - _cap` elements from `off` up to `off + cap - _cap`, zeroes
`cap - _cap` elements at `off`, and advances `off` by `cap - _cap`. -/
def dcarr_reserve (a : DcArr) (n : ℕ) : DcArr :=
  if a.cap < a.len + n then
    let oldCap := a.cap
    let newCap := growCapLoop 33 (a.len + n) a.cap
    if oldCap < a.off + a.len then
      let els1 := memmove a.els (a.off + (newCap - oldCap)) a.off (newCap - oldCap)
      let els2 := memset0 els1 a.off (newCap - oldCap)
      { els := els2, cap := newCap, off := a.off + (newCap - oldCap), len := a.len }
    else
      { a with cap := newCap }
  else a

/-- The capacity loop of `dcarr_reduce_size`:
`do { cap = cap >> 1; } while (len << 2 <= cap && cap > 8);`
with the 32-bit truncation of `len << 2` modelled explicitly.  As in
`growCapLoop`, fuel 33 covers every possible C execution (the capacity
strictly halves each iteration from a value below `2^32`). -/
def shrinkCapLoop : ℕ → ℕ → ℕ → ℕ
  | 0, _, cap => cap
  | fuel + 1, len, cap =>
      let next := cap / 2
      if (4 * len) % 2 ^ 32 ≤ next ∧ 8 < next then shrinkCapLoop fuel len next else next

/-- `dcarr_reduce_size(a, eltype)`: shrink the capacity when at most a quarter
full.  The three relocation branches follow the source; in the middle branch
the C expression `cap - _cap` is an unsigned subtraction with `cap < _cap`,
which wraps, and is modelled as `(cap + (2^32 - _cap)) % 2^32`. -/
def dcarr_reduce_size (a : DcArr) : DcArr :=
  if (4 * a.len) % 2 ^ 32 ≤ a.cap ∧ 8 < a.cap then
    let oldCap := a.cap
    let newCap := shrinkCapLoop 33 a.len a.cap
    if newCap ≤ a.off then
      { a with els := memmove a.els 0 a.off a.len, cap := newCap, off := 0 }
    else if oldCap ≤ a.off + a.len then
      let delta := (newCap + (2 ^ 32 - oldCap)) % 2 ^ 32
      { a with els := memmove a.els ((a.off + delta) % 2 ^ 32) a.off delta,
               cap := newCap, off := (a.off + delta) % 2 ^ 32 }
    else if newCap < a.off + a.len then
      { a with els := memmove a.els 0 newCap (a.off + a.len - newCap), cap := newCap }
    else
      { a with cap := newCap }
  else a

/-- `dcarr_unshift(a, eltype, v)`: insert at the beginning. -/
def dcarr_unshift (a : DcArr) (v : Int) : DcArr :=
  let r := dcarr_reserve a 1
  let newOff := dcarr_idx r (r.cap - 1)
  { r with els := writeAt r.els newOff v, off := newOff, len := r.len + 1 }

/-- `dcarr_shift(a, eltype, value)`: remove at the beginning and return the
value.  C precondition: `len > 0` (the unsigned `len--` would wrap on an
empty deque; `ℕ` subtraction is used here, the two agree when `len > 0`). -/
def dcarr_shift (a : DcArr) : Int × DcArr :=
  let v := a.els a.off
  let a1 := { a with off := dcarr_idx a 1, len := a.len - 1 }
  (v, dcarr_reduce_size a1)

/-- `dcarr_push(a, eltype, v)`: insert at the end. -/
def dcarr_push (a : DcArr) (v : Int) : DcArr :=
  let r := dcarr_reserve a 1
  { r with els := writeAt r.els (dcarr_idx r r.len) v, len := r.len + 1 }

/-- `dcarr_pop(a, eltype, value)`: remove at the end and return the value.
C precondition: `len > 0` (same remark as for `dcarr_shift`). -/
def dcarr_pop (a : DcArr) : Int × DcArr :=
  let a1 := { a with len := a.len - 1 }
  let v := a1.els (dcarr_idx a1 a1.len)
  (v, dcarr_reduce_size a1)

/-- `dcarr_insert(a, i, eltype, v)`: insert at an arbitrary position.  When
`i < len` the source either moves the physical segment
`[off, dcarr_idx(a,i))` one slot down (and decrements `off`), or moves the
`len - i` elements starting at physical `dcarr_idx(a,i)` one slot up; then
`len++` and the element is written at the (new) physical index of `i`. -/
def dcarr_insert (a : DcArr) (i : ℕ) (v : Int) : DcArr :=
  let r := dcarr_reserve a 1
  let r2 :=
    if i < r.len then
      if r.off < dcarr_idx r i ∧ r.off ≠ 0 then
        { r with els := memmove r.els (r.off - 1) r.off (dcarr_idx r i - r.off),
                 off := r.off - 1 }
      else
        { r with els := memmove r.els (dcarr_idx r i + 1) (dcarr_idx r i) (r.len - i) }
    else r
  let r3 := { r2 with len := r2.len + 1 }
  { r3 with els := writeAt r3.els (dcarr_idx r3 i) v }

/-- `dcarr_resize(a, eltype, newsize)`.  The macro in the source has
unbalanced braces (the `if` block opened on its first line is closed by the
brace of the final `}while(0)`, leaving the `do` block open), so any use of
it is ill-formed C.  This definition follows the evident intent recorded by
the macro's own doc comment and indentation: reserve the difference when
growing, set `len = newsize`, then run the shrink check. -/
def dcarr_resize (a : DcArr) (newsize : ℕ) : DcArr :=
  let r := if a.len < newsize then dcarr_reserve a (newsize - a.len) else a
  dcarr_reduce_size { r with len := newsize }

/-- The `count` consecutive physical buffer cells starting at `start`. -/
def physList (els : ℕ → Int) (start count : ℕ) : List Int :=
  (List.range count).map fun j => els (start + j)

/-- `dcarr_sort(a, eltype, cmp)`: if the live range wraps past the end of the
buffer, move the part at `[off, cap)` down to `[off+len-cap, len)` (making
the range one contiguous physical run at `[0, len)`, rotated) and set
`off = 0`; then `qsort` the run.  `qsort` with a total-order comparator is
modelled as `List.insertionSort` under the Boolean relation `le` (the C
standard fixes the multiset and sortedness of the result but not the order
of equivalent elements; `insertionSort` is one admissible outcome). -/
def dcarr_sort (a : DcArr) (le : Int → Int → Bool) : DcArr :=
  let a1 :=
    if a.cap < a.off + a.len then
      { a with els := memmove a.els (a.off + a.len - a.cap) a.off (a.cap - a.off), off := 0 }
    else a
  let sorted := (physList a1.els a1.off a1.len).insertionSort fun x y => le x y = true
  { a1 with els := fun k =>
      if a1.off ≤ k ∧ k < a1.off + a1.len then sorted.getD (k - a1.off) 0 else a1.els k }

/-- The logical contents of the deque, front to back, as read by
`dcarr_elem`. -/
def dcarr_list (a : DcArr) : List Int :=
  (List.range a.len).map fun i => dcarr_elem a i

/-- The data-model invariants of the spec: `length ≤ capacity`; `capacity` is
0 or a power of two; `0 ≤ offset < capacity` when `capacity > 0`; and the
unallocated state has `offset = length = 0`. -/
def DcInv (a : DcArr) : Prop :=
  a.len ≤ a.cap ∧ (a.cap = 0 ∨ ∃ k, a.cap = 2 ^ k) ∧
    (0 < a.cap → a.off < a.cap) ∧ (a.cap = 0 → a.off = 0 ∧ a.len = 0)

/-- One end operation of the deque API (the operations quantified over in the
spec's first testable property). -/
inductive DOp where
  | push (v : Int)
  | unshift (v : Int)
  | pop
  | shift

/-- Run a sequence of end operations on a `DcArr`, starting from `a`. -/
def runD : DcArr → List DOp → DcArr
  | a, [] => a
  | a, DOp.push v :: ops => runD (dcarr_push a v) ops
  | a, DOp.unshift v :: ops => runD (dcarr_unshift a v) ops
  | a, DOp.pop :: ops => runD (dcarr_pop a).2 ops
  | a, DOp.shift :: ops => runD (dcarr_shift a).2 ops

/-- The reference growable-sequence simulation of the same operations:
`push` appends at the back, `unshift` prepends, `pop` drops the last
element, `shift` drops the first. -/
def runL : List Int → List DOp → List Int
  | l, [] => l
  | l, DOp.push v :: ops => runL (l ++ [v]) ops
  | l, DOp.unshift v :: ops => runL (v :: l) ops
  | l, DOp.pop :: ops => runL l.dropLast ops
  | l, DOp.shift :: ops => runL l.tail ops

-- Sanity checks of the embedding against hand-executions of the C code.

example : (dcarr_push dcarr_init 5).cap = 8 := by decide
example : (dcarr_push dcarr_init 5).len = 1 := by decide
example : dcarr_elem (dcarr_push dcarr_init 5) 0 = 5 := by decide
example : (dcarr_unshift dcarr_init 7).off = 7 := by decide
example : dcarr_elem (dcarr_unshift dcarr_init 7) 0 = 7 := by decide

/-! ## Arithmetic helper lemmas about the capacity loops and the index mask -/

theorem dcarr_mask_eq {cap : ℕ} (h0 : 0 < cap) (h32 : cap < 2 ^ 32) :
    dcarr_mask cap = cap - 1 := by
  unfold dcarr_mask
  omega

theorem dcarr_idx_eq_mod (a : DcArr) (i k : ℕ) (hcap : a.cap = 2 ^ k)
    (h32 : a.cap < 2 ^ 32) : dcarr_idx a i = (a.off + i) % a.cap := by
  have h0 : 0 < a.cap := by rw [hcap]; exact Nat.pos_pow_of_pos k (by norm_num)
  unfold dcarr_idx
  rw [dcarr_mask_eq h0 h32, hcap]
  exact Nat.and_pow_two_sub_one_eq_mod _ k

theorem growCapLoop_succ (f t c : ℕ) :
    growCapLoop (f + 1) t c =
      if (if 8 ≤ c then 2 * c else 8) < t then
        growCapLoop f t (if 8 ≤ c then 2 * c else 8)
      else (if 8 ≤ c then 2 * c else 8) := rfl

theorem growCapLoop_le_self : ∀ f t c, c ≤ growCapLoop f t c := by
  intro f
  induction f with
  | zero => intro t c; simp [growCapLoop]
  | succ f ih =>
      intro t c
      rw [growCapLoop_succ]
      have hnext : c ≤ (if 8 ≤ c then 2 * c else 8) := by split <;> omega
      by_cases h : (if 8 ≤ c then 2 * c else 8) < t
      · rw [if_pos h]; exact le_trans hnext (ih t _)
      · rw [if_neg h]; exact hnext

theorem growCapLoop_ge8 (f t c : ℕ) : 8 ≤ growCapLoop (f + 1) t c := by
  rw [growCapLoop_succ]
  have hnext : 8 ≤ (if 8 ≤ c then 2 * c else 8) := by split <;> omega
  by_cases h : (if 8 ≤ c then 2 * c else 8) < t
  · rw [if_pos h]; exact le_trans hnext (growCapLoop_le_self f t _)
  · rw [if_neg h]; exact hnext

theorem growCapLoop_pow2_aux :
    ∀ f t c, (∃ m, 3 ≤ m ∧ c = 2 ^ m) →
      ∃ m, 3 ≤ m ∧ growCapLoop f t c = 2 ^ m := by
  intro f
  induction f with
  | zero => intro t c h; simpa [growCapLoop] using h
  | succ f ih =>
      intro t c h
      obtain ⟨m, hm3, rfl⟩ := h
      have h8 : 8 ≤ 2 ^ m := by
        calc (8 : ℕ) = 2 ^ 3 := by norm_num
        _ ≤ 2 ^ m := Nat.pow_le_pow_right (by norm_num) hm3
      rw [growCapLoop_succ, if_pos h8]
      have hnext : 2 * 2 ^ m = 2 ^ (m + 1) := by rw [pow_succ]; ring
      by_cases h : 2 * 2 ^ m < t
      · rw [if_pos h]; exact ih t _ ⟨m + 1, by omega, hnext⟩
      · rw [if_neg h]; exact ⟨m + 1, by omega, hnext⟩

theorem growCapLoop_pow2 (f t c : ℕ) (h : c = 0 ∨ ∃ k, c = 2 ^ k) :
    ∃ m, 3 ≤ m ∧ growCapLoop (f + 1) t c = 2 ^ m := by
  rw [growCapLoop_succ]
  by_cases h8 : 8 ≤ c
  · obtain ⟨k, rfl⟩ : ∃ k, c = 2 ^ k := by
      rcases h with h | h
      · omega
      · exact h
    have hk3 : 3 ≤ k := by
      by_contra hk
      interval_cases k <;> omega
    rw [if_pos h8]
    have hnext : 2 * 2 ^ k = 2 ^ (k + 1) := by rw [pow_succ]; ring
    by_cases h : 2 * 2 ^ k < t
    · rw [if_pos h]; exact growCapLoop_pow2_aux f t _ ⟨k + 1, by omega, hnext⟩
    · rw [if_neg h]; exact ⟨k + 1, by omega, hnext⟩
  · rw [if_neg h8]
    by_cases h : 8 < t
    · rw [if_pos h]
      exact growCapLoop_pow2_aux f t _ ⟨3, le_refl 3, by norm_num⟩
    · rw [if_neg h]; exact ⟨3, le_refl 3, by norm_num⟩

theorem growCapLoop_ge_target_aux :
    ∀ f t c, 8 ≤ c → t ≤ c * 2 ^ f → t ≤ growCapLoop f t c := by
  intro f
  induction f with
  | zero => intro t c _ h; simpa [growCapLoop] using h
  | succ f ih =>
      intro t c h8 ht
      rw [growCapLoop_succ, if_pos h8]
      by_cases h : 2 * c < t
      · rw [if_pos h]
        refine ih t (2 * c) (by omega) ?_
        calc t ≤ c * 2 ^ (f + 1) := ht
        _ = 2 * c * 2 ^ f := by ring
      · rw [if_neg h]; omega

theorem growCapLoop_ge_target (t c : ℕ) (ht : t ≤ 2 ^ 33) :
    t ≤ growCapLoop 33 t c := by
  rw [show (33 : ℕ) = 32 + 1 from rfl, growCapLoop_succ]
  have hnext : 8 ≤ (if 8 ≤ c then 2 * c else 8) := by split <;> omega
  by_cases h : (if 8 ≤ c then 2 * c else 8) < t
  · rw [if_pos h]
    refine growCapLoop_ge_target_aux 32 t _ hnext ?_
    calc t ≤ 2 ^ 33 := ht
    _ = 8 * 2 ^ 30 := by norm_num
    _ ≤ 8 * 2 ^ 32 := by gcongr <;> norm_num
    _ ≤ (if 8 ≤ c then 2 * c else 8) * 2 ^ 32 := Nat.mul_le_mul_right _ hnext
  · rw [if_neg h]; omega

theorem growCapLoop_le_target :
    ∀ f t c, c < t → growCapLoop f t c ≤ max 8 (2 * (t - 1)) := by
  intro f
  induction f with
  | zero =>
      intro t c h
      rw [show growCapLoop 0 t c = c from rfl]
      omega
  | succ f ih =>
      intro t c hc
      rw [growCapLoop_succ]
      have hnext : (if 8 ≤ c then 2 * c else 8) ≤ max 8 (2 * (t - 1)) := by
        split <;> omega
      by_cases h : (if 8 ≤ c then 2 * c else 8) < t
      · rw [if_pos h]; exact ih t _ h
      · rw [if_neg h]; exact hnext

theorem growCapLoop_ge_twice (f t c : ℕ) (h : c = 0 ∨ ∃ k, c = 2 ^ k) :
    2 * c ≤ growCapLoop (f + 1) t c := by
  rw [growCapLoop_succ]
  have hc4 : 8 ≤ c ∨ c ≤ 4 := by
    rcases h with h | ⟨k, rfl⟩
    · omega
    · by_cases hk : 3 ≤ k
      · left
        calc (8 : ℕ) = 2 ^ 3 := by norm_num
        _ ≤ 2 ^ k := Nat.pow_le_pow_right (by norm_num) hk
      · right; interval_cases k <;> norm_num
  have hnext : 2 * c ≤ (if 8 ≤ c then 2 * c else 8) := by
    rcases hc4 with h8 | h4 <;> split <;> omega
  by_cases h2 : (if 8 ≤ c then 2 * c else 8) < t
  · rw [if_pos h2]; exact le_trans hnext (growCapLoop_le_self f t _)
  · rw [if_neg h2]; exact hnext

theorem shrinkCapLoop_succ (f l c : ℕ) :
    shrinkCapLoop (f + 1) l c =
      if (4 * l) % 2 ^ 32 ≤ c / 2 ∧ 8 < c / 2 then shrinkCapLoop f l (c / 2)
      else c / 2 := rfl

theorem shrinkCapLoop_le_self : ∀ f l c, shrinkCapLoop f l c ≤ c := by
  intro f
  induction f with
  | zero => intro l c; simp [shrinkCapLoop]
  | succ f ih =>
      intro l c
      rw [shrinkCapLoop_succ]
      split
      · exact le_trans (ih l _) (Nat.div_le_self c 2)
      · exact Nat.div_le_self c 2

theorem shrinkCapLoop_le_half (f l c : ℕ) : shrinkCapLoop (f + 1) l c ≤ c / 2 := by
  rw [shrinkCapLoop_succ]
  split
  · exact shrinkCapLoop_le_self f l _
  · exact le_refl _

theorem shrinkCap_spec :
    ∀ f k l, 4 ≤ k → k ≤ f + 3 → 4 * l ≤ 2 ^ k → 4 * l < 2 ^ 32 →
      ∃ m, 3 ≤ m ∧ m < k ∧ shrinkCapLoop f l (2 ^ k) = 2 ^ m ∧ 2 * l ≤ 2 ^ m := by
  intro f
  induction f with
  | zero => intro k l hk4 hkf _ _; omega
  | succ f ih =>
      intro k l hk4 hkf hl hl32
      have hdiv : 2 ^ k / 2 = 2 ^ (k - 1) := by
        have : 2 ^ k = 2 * 2 ^ (k - 1) := by
          rw [← pow_succ']
          congr 1
          omega
        omega
      have hmod : (4 * l) % 2 ^ 32 = 4 * l := Nat.mod_eq_of_lt hl32
      have h2l : 2 * l ≤ 2 ^ (k - 1) := by
        have : 2 ^ k = 2 * 2 ^ (k - 1) := by
          rw [← pow_succ']
          congr 1
          omega
        omega
      rw [shrinkCapLoop_succ, hdiv, hmod]
      by_cases hcond : 4 * l ≤ 2 ^ (k - 1) ∧ 8 < 2 ^ (k - 1)
      · rw [if_pos hcond]
        have hk5 : 5 ≤ k := by
          by_contra h5
          have hk : k = 4 := by omega
          rw [hk] at hcond
          norm_num at hcond
        obtain ⟨m, h3, hlt, heq, h2⟩ :=
          ih (k - 1) l (by omega) (by omega) hcond.1 hl32
        exact ⟨m, h3, by omega, heq, h2⟩
      · rw [if_neg hcond]
        exact ⟨k - 1, by omega, by omega, rfl, h2l⟩

/-! ## Specification lemmas for `dcarr_reserve` and `dcarr_reduce_size` -/

theorem dcarr_reserve_eq_wrap (a : DcArr) (n : ℕ) (hfire : a.cap < a.len + n)
    (hwrap : a.cap < a.off + a.len) :
    dcarr_reserve a n =
      { els := memset0
          (memmove a.els (a.off + (growCapLoop 33 (a.len + n) a.cap - a.cap)) a.off
            (growCapLoop 33 (a.len + n) a.cap - a.cap))
          a.off (growCapLoop 33 (a.len + n) a.cap - a.cap),
        cap := growCapLoop 33 (a.len + n) a.cap,
        off := a.off + (growCapLoop 33 (a.len + n) a.cap - a.cap),
        len := a.len } := by
  unfold dcarr_reserve
  rw [if_pos hfire, if_pos hwrap]

theorem dcarr_reserve_eq_nowrap (a : DcArr) (n : ℕ) (hfire : a.cap < a.len + n)
    (hwrap : ¬ a.cap < a.off + a.len) :
    dcarr_reserve a n = { a with cap := growCapLoop 33 (a.len + n) a.cap } := by
  unfold dcarr_reserve
  rw [if_pos hfire, if_neg hwrap]

theorem dcarr_reserve_eq_of_fits (a : DcArr) (n : ℕ) (hfire : ¬ a.cap < a.len + n) :
    dcarr_reserve a n = a := by
  unfold dcarr_reserve
  rw [if_neg hfire]

theorem growCap_spec (t c : ℕ) (hpow : c = 0 ∨ ∃ k, c = 2 ^ k) (hc : c < t)
    (ht : t ≤ 2 ^ 30) :
    (∃ m, 3 ≤ m ∧ growCapLoop 33 t c = 2 ^ m) ∧ t ≤ growCapLoop 33 t c ∧
      c ≤ growCapLoop 33 t c ∧ 2 * c ≤ growCapLoop 33 t c ∧
      8 ≤ growCapLoop 33 t c ∧ growCapLoop 33 t c < 2 ^ 32 := by
  have h1 := growCapLoop_pow2 32 t c hpow
  have h2 : t ≤ growCapLoop 33 t c :=
    growCapLoop_ge_target t c (by calc t ≤ 2 ^ 30 := ht
      _ ≤ 2 ^ 33 := by norm_num)
  have h3 : c ≤ growCapLoop 33 t c := growCapLoop_le_self 33 t c
  have h4 := growCapLoop_ge_twice 32 t c hpow
  have h5 := growCapLoop_ge8 32 t c
  have h6 := growCapLoop_le_target 33 t c hc
  norm_num at h1 h4 h5
  have h7 : growCapLoop 33 t c < 2 ^ 32 := by
    have h30 : 2 * (t - 1) ≤ 2 ^ 31 := by
      have : (2 : ℕ) ^ 31 = 2 * 2 ^ 30 := by norm_num
      omega
    have h31 : (2 : ℕ) ^ 31 < 2 ^ 32 := by norm_num
    have h8 : (8 : ℕ) < 2 ^ 32 := by norm_num
    omega
  exact ⟨h1, h2, h3, h4, h5, h7⟩

theorem dcarr_reserve_spec (a : DcArr) (n : ℕ) (hInv : DcInv a)
    (hcap : a.cap < 2 ^ 32) (hn : a.len + n ≤ 2 ^ 30) :
    DcInv (dcarr_reserve a n) ∧ (dcarr_reserve a n).len = a.len ∧
      a.len + n ≤ (dcarr_reserve a n).cap ∧ a.cap ≤ (dcarr_reserve a n).cap ∧
      (dcarr_reserve a n).cap < 2 ^ 32 ∧ (dcarr_reserve a n).off ≤ (dcarr_reserve a n).cap - 1 := by
  obtain ⟨hlen, hpow, hoff, hzero⟩ := hInv
  by_cases hfire : a.cap < a.len + n
  · obtain ⟨⟨m, hm3, hm⟩, hge, hmono, htwice, h8, hlt⟩ :=
      growCap_spec (a.len + n) a.cap hpow hfire hn
    have hoffcap : a.off ≤ a.cap := by
      rcases Nat.eq_zero_or_pos a.cap with h0 | h0
      · obtain ⟨ho, _⟩ := hzero h0
        omega
      · exact le_of_lt (hoff h0)
    have hoffstrict : a.cap = 0 ∨ a.off < a.cap := by
      rcases Nat.eq_zero_or_pos a.cap with h0 | h0
      · exact Or.inl h0
      · exact Or.inr (hoff h0)
    by_cases hwrap : a.cap < a.off + a.len
    · rw [dcarr_reserve_eq_wrap a n hfire hwrap]
      have hcap0 : 0 < a.cap := by
        rcases hoffstrict with h0 | h0
        · obtain ⟨ho, hl⟩ := hzero h0
          omega
        · omega
      have hoff2 : a.off < a.cap := by
        rcases hoffstrict with h0 | h0
        · omega
        · exact h0
      refine ⟨⟨by simp <;> omega, Or.inr ⟨m, by simpa using hm⟩, by simp <;> omega,
        by simp <;> omega⟩, rfl, by simpa using hge, by simpa using hmono,
        by simpa using hlt, by simp <;> omega⟩
    · rw [dcarr_reserve_eq_nowrap a n hfire hwrap]
      refine ⟨⟨by simp <;> omega, Or.inr ⟨m, by simpa using hm⟩, by simp <;> omega,
        by simp <;> omega⟩, rfl, by simpa using hge, by simpa using hmono,
        by simpa using hlt, by simp <;> omega⟩
  · rw [dcarr_reserve_eq_of_fits a n hfire]
    have hoffcap : a.off ≤ a.cap - 1 := by
      rcases Nat.eq_zero_or_pos a.cap with h0 | h0
      · obtain ⟨ho, _⟩ := hzero h0
        omega
      · have := hoff h0
        omega
    exact ⟨⟨hlen, hpow, hoff, hzero⟩, rfl, by omega, le_refl _, hcap, hoffcap⟩


theorem dcarr_reduce_size_len (a : DcArr) :
    (dcarr_reduce_size a).len = a.len := by
  unfold dcarr_reduce_size
  dsimp only
  split_ifs <;> rfl

theorem dcarr_reduce_eq_whole (a : DcArr)
    (htrig : (4 * a.len) % 2 ^ 32 ≤ a.cap ∧ 8 < a.cap)
    (hb1 : shrinkCapLoop 33 a.len a.cap ≤ a.off) :
    dcarr_reduce_size a =
      { a with els := memmove a.els 0 a.off a.len,
               cap := shrinkCapLoop 33 a.len a.cap, off := 0 } := by
  unfold dcarr_reduce_size
  rw [if_pos htrig]
  dsimp only
  rw [if_pos hb1]

theorem dcarr_reduce_eq_overflow (a : DcArr)
    (htrig : (4 * a.len) % 2 ^ 32 ≤ a.cap ∧ 8 < a.cap)
    (hb1 : ¬ shrinkCapLoop 33 a.len a.cap ≤ a.off)
    (hb2 : ¬ a.cap ≤ a.off + a.len)
    (hb3 : shrinkCapLoop 33 a.len a.cap < a.off + a.len) :
    dcarr_reduce_size a =
      { a with els := memmove a.els 0 (shrinkCapLoop 33 a.len a.cap)
                 (a.off + a.len - shrinkCapLoop 33 a.len a.cap),
               cap := shrinkCapLoop 33 a.len a.cap } := by
  unfold dcarr_reduce_size
  rw [if_pos htrig]
  dsimp only
  rw [if_neg hb1, if_neg hb2, if_pos hb3]

theorem dcarr_reduce_eq_fits (a : DcArr)
    (htrig : (4 * a.len) % 2 ^ 32 ≤ a.cap ∧ 8 < a.cap)
    (hb1 : ¬ shrinkCapLoop 33 a.len a.cap ≤ a.off)
    (hb2 : ¬ a.cap ≤ a.off + a.len)
    (hb3 : ¬ shrinkCapLoop 33 a.len a.cap < a.off + a.len) :
    dcarr_reduce_size a = { a with cap := shrinkCapLoop 33 a.len a.cap } := by
  unfold dcarr_reduce_size
  rw [if_pos htrig]
  dsimp only
  rw [if_neg hb1, if_neg hb2, if_neg hb3]

theorem dcarr_reduce_eq_no_trigger (a : DcArr)
    (htrig : ¬ ((4 * a.len) % 2 ^ 32 ≤ a.cap ∧ 8 < a.cap)) :
    dcarr_reduce_size a = a := by
  unfold dcarr_reduce_size
  rw [if_neg htrig]

/-- Under the data-model invariants and the shrink trigger, the middle
relocation branch of `dcarr_reduce_size` is unreachable: if the offset is
below the shrunken capacity, the live range cannot reach the old capacity
boundary. -/
theorem dcarr_reduce_no_middle (a : DcArr) (k : ℕ) (hk : a.cap = 2 ^ k)
    (hcap : a.cap < 2 ^ 32) (hlen32 : 4 * a.len < 2 ^ 32)
    (htrig : 4 * a.len ≤ a.cap ∧ 8 < a.cap)
    (hb1 : ¬ shrinkCapLoop 33 a.len a.cap ≤ a.off) :
    ¬ a.cap ≤ a.off + a.len := by
  have hk4 : 4 ≤ k := by
    by_contra h4
    rw [hk] at htrig
    interval_cases k <;> omega
  have hk32 : k ≤ 31 := by
    by_contra h32
    have : 2 ^ 32 ≤ 2 ^ k := Nat.pow_le_pow_right (by norm_num) (by omega)
    omega
  obtain ⟨m, hm3, hmk, heq, h2l⟩ :=
    shrinkCap_spec 33 k a.len hk4 (by omega) (by rw [← hk]; exact htrig.1) hlen32
  rw [hk] at hb1 ⊢
  rw [heq] at hb1
  have hmle : (2 : ℕ) ^ m ≤ 2 ^ (k - 1) := Nat.pow_le_pow_right (by norm_num) (by omega)
  have ha : (2 : ℕ) ^ k = 2 * 2 ^ (k - 1) := by
    rw [← pow_succ']
    congr 1
    omega
  have hb : (2 : ℕ) ^ (k - 1) = 2 * 2 ^ (k - 2) := by
    rw [← pow_succ']
    congr 1
    omega
  have hlen : a.len ≤ 2 ^ (k - 2) := by
    rw [hk] at htrig
    omega
  omega

theorem dcarr_reduce_inv (a : DcArr) (hInv : DcInv a) (hcap : a.cap < 2 ^ 32)
    (hlen32 : 4 * a.len < 2 ^ 32) :
    DcInv (dcarr_reduce_size a) ∧ (dcarr_reduce_size a).cap ≤ a.cap ∧
      (dcarr_reduce_size a).cap < 2 ^ 32 := by
  obtain ⟨hlen, hpow, hoff, hzero⟩ := hInv
  by_cases htrig0 : (4 * a.len) % 2 ^ 32 ≤ a.cap ∧ 8 < a.cap
  · have hmod : (4 * a.len) % 2 ^ 32 = 4 * a.len := Nat.mod_eq_of_lt hlen32
    have htrig : 4 * a.len ≤ a.cap ∧ 8 < a.cap := by rw [hmod] at htrig0; exact htrig0
    obtain ⟨k, hk⟩ : ∃ k, a.cap = 2 ^ k := by
      rcases hpow with h0 | h
      · omega
      · exact h
    have hk4 : 4 ≤ k := by
      by_contra h4
      rw [hk] at htrig
      interval_cases k <;> omega
    have hk32 : k ≤ 31 := by
      by_contra h32
      have : 2 ^ 32 ≤ 2 ^ k := Nat.pow_le_pow_right (by norm_num) (by omega)
      omega
    obtain ⟨m, hm3, hmk, heq, h2l⟩ :=
      shrinkCap_spec 33 k a.len hk4 (by omega) (by rw [← hk]; exact htrig.1) hlen32
    rw [← hk] at heq
    have hNle : shrinkCapLoop 33 a.len a.cap ≤ a.cap := shrinkCapLoop_le_self _ _ _
    have hNpos : 0 < shrinkCapLoop 33 a.len a.cap := by
      rw [heq]
      exact Nat.pos_pow_of_pos m (by norm_num)
    by_cases hb1 : shrinkCapLoop 33 a.len a.cap ≤ a.off
    · rw [dcarr_reduce_eq_whole a htrig0 hb1]
      refine ⟨⟨by simp <;> omega, Or.inr ⟨m, by simpa using heq⟩, by simp <;> omega,
        by simp <;> omega⟩, by simpa using hNle, by simp <;> omega⟩
    · have hb2 := dcarr_reduce_no_middle a k hk hcap hlen32 htrig hb1
      by_cases hb3 : shrinkCapLoop 33 a.len a.cap < a.off + a.len
      · rw [dcarr_reduce_eq_overflow a htrig0 hb1 hb2 hb3]
        refine ⟨⟨by simp <;> omega, Or.inr ⟨m, by simpa using heq⟩, by simp <;> omega,
          by simp <;> omega⟩, by simpa using hNle, by simp <;> omega⟩
      · rw [dcarr_reduce_eq_fits a htrig0 hb1 hb2 hb3]
        refine ⟨⟨by simp <;> omega, Or.inr ⟨m, by simpa using heq⟩, by simp <;> omega,
          by simp <;> omega⟩, by simpa using hNle, by simp <;> omega⟩
  · rw [dcarr_reduce_eq_no_trigger a htrig0]
    exact ⟨⟨hlen, hpow, hoff, hzero⟩, le_refl _, hcap⟩

/-- When the live range does not wrap around the old capacity boundary,
`dcarr_reduce_size` preserves every logical element. -/
theorem dcarr_reduce_elem_nowrap (a : DcArr) (hInv : DcInv a)
    (hcap : a.cap < 2 ^ 32) (hlen32 : 4 * a.len < 2 ^ 32)
    (hnw : a.off + a.len ≤ a.cap) :
    ∀ i, i < a.len → dcarr_elem (dcarr_reduce_size a) i = dcarr_elem a i := by
  intro i hi
  obtain ⟨hlen, hpow, hoff, hzero⟩ := hInv
  by_cases htrig0 : (4 * a.len) % 2 ^ 32 ≤ a.cap ∧ 8 < a.cap
  · have hmod : (4 * a.len) % 2 ^ 32 = 4 * a.len := Nat.mod_eq_of_lt hlen32
    have htrig : 4 * a.len ≤ a.cap ∧ 8 < a.cap := by rw [hmod] at htrig0; exact htrig0
    obtain ⟨k, hk⟩ : ∃ k, a.cap = 2 ^ k := by
      rcases hpow with h0 | h
      · omega
      · exact h
    have hk4 : 4 ≤ k := by
      by_contra h4
      rw [hk] at htrig
      interval_cases k <;> omega
    have hk32 : k ≤ 31 := by
      by_contra h32
      have : 2 ^ 32 ≤ 2 ^ k := Nat.pow_le_pow_right (by norm_num) (by omega)
      omega
    obtain ⟨m, hm3, hmk, heq, h2l⟩ :=
      shrinkCap_spec 33 k a.len hk4 (by omega) (by rw [← hk]; exact htrig.1) hlen32
    rw [← hk] at heq
    have hN32 : shrinkCapLoop 33 a.len a.cap < 2 ^ 32 :=
      lt_of_le_of_lt (shrinkCapLoop_le_self _ _ _) hcap
    have hlenN : a.len ≤ shrinkCapLoop 33 a.len a.cap := by
      rw [heq]; omega
    have hold : dcarr_elem a i = a.els (a.off + i) := by
      unfold dcarr_elem
      rw [dcarr_idx_eq_mod a i k hk hcap, Nat.mod_eq_of_lt (by omega)]
    by_cases hb1 : shrinkCapLoop 33 a.len a.cap ≤ a.off
    · rw [dcarr_reduce_eq_whole a htrig0 hb1, hold]
      unfold dcarr_elem
      rw [dcarr_idx_eq_mod _ i m (by simpa using heq) (by simpa using hN32)]
      simp only
      rw [Nat.zero_add, Nat.mod_eq_of_lt (by rw [heq] at hlenN ⊢; omega)]
      unfold memmove
      rw [if_pos ⟨Nat.zero_le i, by omega⟩]
      norm_num
    · have hb2 := dcarr_reduce_no_middle a k hk hcap hlen32 htrig hb1
      by_cases hb3 : shrinkCapLoop 33 a.len a.cap < a.off + a.len
      · rw [dcarr_reduce_eq_overflow a htrig0 hb1 hb2 hb3, hold]
        unfold dcarr_elem
        rw [dcarr_idx_eq_mod _ i m (by simpa using heq) (by simpa using hN32)]
        simp only
        unfold memmove
        by_cases hsmall : a.off + i < shrinkCapLoop 33 a.len a.cap
        · rw [Nat.mod_eq_of_lt (by rw [heq] at hsmall ⊢; omega)]
          rw [if_neg (by omega)]
        · have hlt2 : a.off + i < 2 * shrinkCapLoop 33 a.len a.cap := by omega
          have hmod2 : (a.off + i) % shrinkCapLoop 33 a.len a.cap =
              a.off + i - shrinkCapLoop 33 a.len a.cap := by
            rw [Nat.mod_eq_sub_mod (by omega), Nat.mod_eq_of_lt (by omega)]
          rw [heq] at hmod2 ⊢
          rw [hmod2]
          rw [if_pos ⟨Nat.zero_le _, by omega⟩]
          congr 1
          rw [← heq]
          omega
      · rw [dcarr_reduce_eq_fits a htrig0 hb1 hb2 hb3, hold]
        unfold dcarr_elem
        rw [dcarr_idx_eq_mod _ i m (by simpa using heq) (by simpa using hN32)]
        simp only
        rw [Nat.mod_eq_of_lt (by omega)]
  · rw [dcarr_reduce_eq_no_trigger a htrig0]

/-! ## Invariant preservation for each public operation -/

theorem dcarr_push_inv (a : DcArr) (v : Int) (hInv : DcInv a)
    (hcap : a.cap < 2 ^ 32) (hlen32 : 4 * a.len < 2 ^ 32) :
    DcInv (dcarr_push a v) := by
  have hn : a.len + 1 ≤ 2 ^ 30 := by omega
  obtain ⟨⟨h1, h2, h3, h4⟩, hrlen, hrge, _, hrlt, _⟩ := dcarr_reserve_spec a 1 hInv hcap hn
  have hcap0 : 0 < (dcarr_reserve a 1).cap := by omega
  have hoffr := h3 hcap0
  unfold dcarr_push
  exact ⟨by simp <;> omega, by simpa using h2, by intro _; simpa using hoffr,
    by intro h; simp at h; omega⟩

theorem dcarr_unshift_inv (a : DcArr) (v : Int) (hInv : DcInv a)
    (hcap : a.cap < 2 ^ 32) (hlen32 : 4 * a.len < 2 ^ 32) :
    DcInv (dcarr_unshift a v) := by
  have hn : a.len + 1 ≤ 2 ^ 30 := by omega
  obtain ⟨⟨h1, h2, h3, h4⟩, hrlen, hrge, _, hrlt, _⟩ := dcarr_reserve_spec a 1 hInv hcap hn
  have hcap0 : 0 < (dcarr_reserve a 1).cap := by omega
  have hidx : dcarr_idx (dcarr_reserve a 1) ((dcarr_reserve a 1).cap - 1) <
      (dcarr_reserve a 1).cap := by
    unfold dcarr_idx
    rw [dcarr_mask_eq hcap0 hrlt]
    have := Nat.and_le_right
      (n := (dcarr_reserve a 1).off + ((dcarr_reserve a 1).cap - 1))
      (m := (dcarr_reserve a 1).cap - 1)
    omega
  unfold dcarr_unshift
  exact ⟨by simp <;> omega, by simpa using h2, by intro _; simpa using hidx,
    by intro h; simp at h; omega⟩

theorem dcarr_pop_inv (a : DcArr) (hInv : DcInv a)
    (hcap : a.cap < 2 ^ 32) (hlen32 : 4 * a.len < 2 ^ 32) :
    DcInv (dcarr_pop a).2 := by
  obtain ⟨h1, h2, h3, h4⟩ := hInv
  unfold dcarr_pop
  dsimp only
  have hInv1 : DcInv { a with len := a.len - 1 } :=
    ⟨by simp <;> omega, by simpa using h2, by intro h; simp at h ⊢; exact h3 h,
      by intro h; simp at h ⊢; omega⟩
  exact (dcarr_reduce_inv _ hInv1 (by simpa using hcap) (by simp <;> omega)).1

theorem dcarr_shift_inv (a : DcArr) (hInv : DcInv a) (hpos : 0 < a.len)
    (hcap : a.cap < 2 ^ 32) (hlen32 : 4 * a.len < 2 ^ 32) :
    DcInv (dcarr_shift a).2 := by
  obtain ⟨h1, h2, h3, h4⟩ := hInv
  have hcap0 : 0 < a.cap := by omega
  have hidx : dcarr_idx a 1 < a.cap := by
    unfold dcarr_idx
    rw [dcarr_mask_eq hcap0 hcap]
    have := Nat.and_le_right (n := a.off + 1) (m := a.cap - 1)
    omega
  unfold dcarr_shift
  dsimp only
  have hInv1 : DcInv { a with off := dcarr_idx a 1, len := a.len - 1 } :=
    ⟨by simp <;> omega, by simpa using h2, by intro _; simpa using hidx,
      by intro h; simp at h; omega⟩
  exact (dcarr_reduce_inv _ hInv1 (by simpa using hcap) (by simp <;> omega)).1

theorem dcarr_insert_inv (a : DcArr) (i : ℕ) (v : Int) (hInv : DcInv a)
    (hcap : a.cap < 2 ^ 32) (hlen32 : 4 * a.len < 2 ^ 32) :
    DcInv (dcarr_insert a i v) := by
  have hn : a.len + 1 ≤ 2 ^ 30 := by omega
  obtain ⟨⟨h1, h2, h3, h4⟩, hrlen, hrge, _, hrlt, _⟩ := dcarr_reserve_spec a 1 hInv hcap hn
  have hcap0 : 0 < (dcarr_reserve a 1).cap := by omega
  have hoffr := h3 hcap0
  unfold dcarr_insert
  dsimp only
  split_ifs with hil hbr
  · exact ⟨by simp <;> omega, by simpa using h2, by intro _; simp <;> omega,
      by intro h; simp at h; omega⟩
  · exact ⟨by simp <;> omega, by simpa using h2, by intro _; simpa using hoffr,
      by intro h; simp at h; omega⟩
  · exact ⟨by simp <;> omega, by simpa using h2, by intro _; simpa using hoffr,
      by intro h; simp at h; omega⟩

theorem dcarr_resize_inv (a : DcArr) (m : ℕ) (hInv : DcInv a)
    (hcap : a.cap < 2 ^ 32) (hlen32 : 4 * a.len < 2 ^ 32) (hm32 : 4 * m < 2 ^ 32) :
    DcInv (dcarr_resize a m) := by
  unfold dcarr_resize
  dsimp only
  split_ifs with hgrow
  · have hn : a.len + (m - a.len) ≤ 2 ^ 30 := by omega
    obtain ⟨hrInv, hrlen, hrge, hrmono, hrlt, hroff⟩ :=
      dcarr_reserve_spec a (m - a.len) hInv hcap hn
    have hInv1 : DcInv { dcarr_reserve a (m - a.len) with len := m } := by
      refine ⟨?_, ?_, ?_, ?_⟩
      · show m ≤ (dcarr_reserve a (m - a.len)).cap
        omega
      · exact hrInv.2.1
      · exact hrInv.2.2.1
      · intro h0
        have h0x : (dcarr_reserve a (m - a.len)).cap = 0 := h0
        refine ⟨(hrInv.2.2.2 h0x).1, ?_⟩
        show m = 0
        omega
    refine (dcarr_reduce_inv _ hInv1 ?_ ?_).1
    · show (dcarr_reserve a (m - a.len)).cap < 2 ^ 32
      exact hrlt
    · show 4 * m < 2 ^ 32
      exact hm32
  · have hInv1 : DcInv { a with len := m } := by
      refine ⟨?_, ?_, ?_, ?_⟩
      · show m ≤ a.cap
        have := hInv.1
        omega
      · exact hInv.2.1
      · exact hInv.2.2.1
      · intro h0
        have h0x : a.cap = 0 := h0
        have h1x := hInv.1
        refine ⟨(hInv.2.2.2 h0x).1, ?_⟩
        show m = 0
        omega
    refine (dcarr_reduce_inv _ hInv1 ?_ ?_).1
    · show a.cap < 2 ^ 32
      exact hcap
    · show 4 * m < 2 ^ 32
      exact hm32

theorem dcarr_sort_inv (a : DcArr) (le : Int → Int → Bool) (hInv : DcInv a) :
    DcInv (dcarr_sort a le) := by
  obtain ⟨h1, h2, h3, h4⟩ := hInv
  unfold dcarr_sort
  dsimp only
  split_ifs with hwrap
  · exact ⟨by simpa using h1, by simpa using h2, by intro h; simp at h ⊢; omega,
      by intro h; simp at h ⊢; omega⟩
  · exact ⟨by simpa using h1, by simpa using h2, by intro h; simp at h ⊢; exact h3 h,
      by intro h; simp at h ⊢; exact h4 h⟩

/-! ## Claim C2 -/

/-- C2 (amended): after every public operation applied to a state satisfying
the data-model invariants whose length (and, for resize, requested size;
for reserve, requested total) stays below the 32-bit overflow threshold of
the shrink trigger, the invariants hold again: `length ≤ capacity`,
`capacity` is 0 or a power of two, `0 ≤ offset < capacity` when
`capacity > 0`, and `offset = length = 0` when `capacity = 0`. -/
theorem C2_invariants_preserved (a : DcArr) (v : Int) (i n m : ℕ)
    (le : Int → Int → Bool) (hInv : DcInv a) (hcap : a.cap < 2 ^ 32)
    (hlen32 : 4 * a.len < 2 ^ 32) :
    DcInv (dcarr_push a v) ∧ DcInv (dcarr_unshift a v) ∧
      (0 < a.len → DcInv (dcarr_pop a).2) ∧
      (0 < a.len → DcInv (dcarr_shift a).2) ∧
      (i ≤ a.len → DcInv (dcarr_insert a i v)) ∧
      (4 * m < 2 ^ 32 → DcInv (dcarr_resize a m)) ∧
      (a.len + n ≤ 2 ^ 30 → DcInv (dcarr_reserve a n)) ∧
      DcInv (dcarr_sort a le) := by
  refine ⟨dcarr_push_inv a v hInv hcap hlen32, dcarr_unshift_inv a v hInv hcap hlen32,
    fun _ => dcarr_pop_inv a hInv hcap hlen32,
    fun hpos => dcarr_shift_inv a hInv hpos hcap hlen32,
    fun _ => dcarr_insert_inv a i v hInv hcap hlen32,
    fun hm32 => dcarr_resize_inv a m hInv hcap hlen32 hm32,
    fun hn => (dcarr_reserve_spec a n hInv hcap hn).1,
    dcarr_sort_inv a le hInv⟩

/-- Witness for C2: the amended invariant-preservation theorem applied to a
concrete state. -/
theorem C2_invariants_preserved_witness :
    DcInv (DcArr.mk (fun _ => 0) 8 2 4) ∧
      (DcArr.mk (fun _ => 0) 8 2 4).cap < 2 ^ 32 ∧
      4 * (DcArr.mk (fun _ => 0) 8 2 4).len < 2 ^ 32 ∧
      (DcInv (dcarr_push (DcArr.mk (fun _ => 0) 8 2 4) 7) ∧
        DcInv (dcarr_unshift (DcArr.mk (fun _ => 0) 8 2 4) 7) ∧
        (0 < (DcArr.mk (fun _ => 0) 8 2 4).len →
          DcInv (dcarr_pop (DcArr.mk (fun _ => 0) 8 2 4)).2) ∧
        (0 < (DcArr.mk (fun _ => 0) 8 2 4).len →
          DcInv (dcarr_shift (DcArr.mk (fun _ => 0) 8 2 4)).2) ∧
        (1 ≤ (DcArr.mk (fun _ => 0) 8 2 4).len →
          DcInv (dcarr_insert (DcArr.mk (fun _ => 0) 8 2 4) 1 7)) ∧
        (4 * 2 < 2 ^ 32 → DcInv (dcarr_resize (DcArr.mk (fun _ => 0) 8 2 4) 2)) ∧
        ((DcArr.mk (fun _ => 0) 8 2 4).len + 1 ≤ 2 ^ 30 →
          DcInv (dcarr_reserve (DcArr.mk (fun _ => 0) 8 2 4) 1)) ∧
        DcInv (dcarr_sort (DcArr.mk (fun _ => 0) 8 2 4) (fun x y => decide (x ≤ y)))) := by
  have hInv : DcInv (DcArr.mk (fun _ => 0) 8 2 4) :=
    ⟨by norm_num, Or.inr ⟨3, by norm_num⟩, by norm_num, by norm_num⟩
  exact ⟨hInv, by norm_num, by norm_num,
    C2_invariants_preserved (DcArr.mk (fun _ => 0) 8 2 4) 7 1 1 2
      (fun x y => decide (x ≤ y)) hInv (by norm_num) (by norm_num)⟩

/-- The state reached from `dcarr_init` by `n` pushes of the value 7. -/
def pushN : ℕ → DcArr
  | 0 => dcarr_init
  | n + 1 => dcarr_push (pushN n) 7

theorem growCapLoop_double (t c : ℕ) (h8 : 8 ≤ c) (ht : t ≤ 2 * c) :
    growCapLoop 33 t c = 2 * c := by
  rw [show (33 : ℕ) = 32 + 1 from rfl, growCapLoop_succ, if_pos h8, if_neg (by omega)]

theorem pushN_spec : ∀ n, (pushN n).off = 0 ∧ (pushN n).len = n ∧
    ((pushN n).cap = 0 ∧ n = 0 ∨
      ∃ k, 3 ≤ k ∧ (pushN n).cap = 2 ^ k ∧ n ≤ 2 ^ k ∧ (k = 3 ∨ 2 ^ (k - 1) < n)) := by
  intro n
  induction n with
  | zero => exact ⟨rfl, rfl, Or.inl ⟨rfl, rfl⟩⟩
  | succ n ih =>
      obtain ⟨hoff, hlen, hcap⟩ := ih
      rcases hcap with ⟨hc0, hn0⟩ | ⟨k, hk3, hck, hnk, hlast⟩
      · subst hn0
        refine ⟨?_, ?_, Or.inr ⟨3, le_refl 3, ?_, by norm_num, Or.inl rfl⟩⟩
        · show (dcarr_push (pushN 0) 7).off = 0
          have : pushN 0 = dcarr_init := rfl
          rw [this]
          decide
        · show (dcarr_push (pushN 0) 7).len = 1
          have : pushN 0 = dcarr_init := rfl
          rw [this]
          decide
        · show (dcarr_push (pushN 0) 7).cap = 2 ^ 3
          have : pushN 0 = dcarr_init := rfl
          rw [this]
          decide
      · have h8k : (8 : ℕ) ≤ 2 ^ k :=
          le_trans (by norm_num) (Nat.pow_le_pow_right (by norm_num) hk3)
        by_cases hfull : n < 2 ^ k
        · have hres : dcarr_reserve (pushN n) 1 = pushN n := by
            refine dcarr_reserve_eq_of_fits (pushN n) 1 ?_
            rw [hck, hlen]
            omega
          have hpush : pushN (n + 1) = dcarr_push (pushN n) 7 := rfl
          refine ⟨?_, ?_, Or.inr ⟨k, hk3, ?_, by omega, ?_⟩⟩
          · show (dcarr_push (pushN n) 7).off = 0
            unfold dcarr_push
            rw [hres]
            simpa using hoff
          · show (dcarr_push (pushN n) 7).len = n + 1
            unfold dcarr_push
            rw [hres]
            simpa using hlen
          · show (dcarr_push (pushN n) 7).cap = 2 ^ k
            unfold dcarr_push
            rw [hres]
            simpa using hck
          · rcases hlast with h3 | hlt
            · exact Or.inl h3
            · exact Or.inr (by omega)
        · have hn2k : n = 2 ^ k := by omega
          have hfire : (pushN n).cap < (pushN n).len + 1 := by
            rw [hck, hlen]
            omega
          have hnw : ¬ (pushN n).cap < (pushN n).off + (pushN n).len := by
            rw [hck, hlen, hoff]
            omega
          have hres := dcarr_reserve_eq_nowrap (pushN n) 1 hfire hnw
          have hgrow : growCapLoop 33 ((pushN n).len + 1) (pushN n).cap = 2 ^ (k + 1) := by
            rw [hck, hlen, hn2k]
            rw [growCapLoop_double (2 ^ k + 1) (2 ^ k) h8k (by omega)]
            rw [pow_succ]
            ring
          refine ⟨?_, ?_, Or.inr ⟨k + 1, by omega, ?_, ?_, Or.inr ?_⟩⟩
          · show (dcarr_push (pushN n) 7).off = 0
            unfold dcarr_push
            rw [hres]
            simpa using hoff
          · show (dcarr_push (pushN n) 7).len = n + 1
            unfold dcarr_push
            rw [hres]
            simpa using hlen
          · show (dcarr_push (pushN n) 7).cap = 2 ^ (k + 1)
            unfold dcarr_push
            rw [hres]
            simpa using hgrow
          · rw [pow_succ]
            omega
          · show 2 ^ (k + 1 - 1) < n + 1
            simpa using by omega

theorem pushN_big : (pushN (2 ^ 30 + 1)).off = 0 ∧
    (pushN (2 ^ 30 + 1)).len = 2 ^ 30 + 1 ∧ (pushN (2 ^ 30 + 1)).cap = 2 ^ 31 := by
  obtain ⟨hoff, hlen, hcap⟩ := pushN_spec (2 ^ 30 + 1)
  rcases hcap with ⟨_, h⟩ | ⟨k, hk3, hcapk, hnk, hlast⟩
  · omega
  · have hge : 31 ≤ k := by
      by_contra h
      have : (2 : ℕ) ^ k ≤ 2 ^ 30 := Nat.pow_le_pow_right (by norm_num) (by omega)
      omega
    have hk31 : k = 31 := by
      rcases hlast with h3 | hlt
      · omega
      · by_contra hne
        have h32 : 31 ≤ k - 1 := by omega
        have : (2 : ℕ) ^ 31 ≤ 2 ^ (k - 1) := Nat.pow_le_pow_right (by norm_num) h32
        have h31 : (2 : ℕ) ^ 30 < 2 ^ 31 := by norm_num
        omega
    subst hk31
    exact ⟨hoff, hlen, hcapk⟩

theorem shrinkCapLoop_big_eval : shrinkCapLoop 33 (2 ^ 30) (2 ^ 31) = 8 := by decide

theorem dcarr_pop_snd (a : DcArr) :
    (dcarr_pop a).2 = dcarr_reduce_size { a with len := a.len - 1 } := rfl

theorem pop_overflow_breaks_inv (S : DcArr) (hoff : S.off = 0)
    (hlen : S.len = 2 ^ 30 + 1) (hcap : S.cap = 2 ^ 31) :
    ¬ DcInv (dcarr_pop S).2 := by
  have hpop : (dcarr_pop S).2 = dcarr_reduce_size { S with len := S.len - 1 } :=
    dcarr_pop_snd S
  have hf1 : ({ S with len := S.len - 1 } : DcArr).cap = 2 ^ 31 := hcap
  have hf2 : ({ S with len := S.len - 1 } : DcArr).off = 0 := hoff
  have hf3 : ({ S with len := S.len - 1 } : DcArr).len = 2 ^ 30 := by
    show S.len - 1 = 2 ^ 30
    omega
  have htrig : (4 * ({ S with len := S.len - 1 } : DcArr).len) % 2 ^ 32 ≤
      ({ S with len := S.len - 1 } : DcArr).cap ∧
      8 < ({ S with len := S.len - 1 } : DcArr).cap := by
    rw [hf3, hf1]
    norm_num
  have hN : shrinkCapLoop 33 ({ S with len := S.len - 1 } : DcArr).len
      ({ S with len := S.len - 1 } : DcArr).cap = 8 := by
    rw [hf3, hf1]
    exact shrinkCapLoop_big_eval
  have hb1 : ¬ shrinkCapLoop 33 ({ S with len := S.len - 1 } : DcArr).len
      ({ S with len := S.len - 1 } : DcArr).cap ≤
      ({ S with len := S.len - 1 } : DcArr).off := by
    rw [hN, hf2]
    norm_num
  have hb2 : ¬ ({ S with len := S.len - 1 } : DcArr).cap ≤
      ({ S with len := S.len - 1 } : DcArr).off +
        ({ S with len := S.len - 1 } : DcArr).len := by
    rw [hf1, hf2, hf3]
    norm_num
  have hb3 : shrinkCapLoop 33 ({ S with len := S.len - 1 } : DcArr).len
      ({ S with len := S.len - 1 } : DcArr).cap <
      ({ S with len := S.len - 1 } : DcArr).off +
        ({ S with len := S.len - 1 } : DcArr).len := by
    rw [hN, hf2, hf3]
    norm_num
  rw [hpop, dcarr_reduce_eq_overflow _ htrig hb1 hb2 hb3]
  intro hInv2
  have hx : ({ S with len := S.len - 1 } : DcArr).len ≤
      shrinkCapLoop 33 ({ S with len := S.len - 1 } : DcArr).len
        ({ S with len := S.len - 1 } : DcArr).cap := hInv2.1
  rw [hN, hf3] at hx
  norm_num at hx

/-- Counterexample to C2 as stated: the invariant-satisfying state reached
from `dcarr_init` by `2^30 + 1` pushes (capacity `2^31`, offset 0) is mapped
by a single `dcarr_pop` to a state violating `length ≤ capacity`: the 32-bit
shift `len << 2` in the shrink trigger wraps to 0 at `len = 2^30`, so
`dcarr_reduce_size` shrinks the capacity all the way down to 8 under
`2^30` live elements. -/
theorem C2_counterexample :
    DcInv (pushN (2 ^ 30 + 1)) ∧ ¬ DcInv (dcarr_pop (pushN (2 ^ 30 + 1))).2 := by
  obtain ⟨hoff, hlen, hcap⟩ := pushN_big
  refine ⟨⟨?_, Or.inr ⟨31, hcap⟩, ?_, ?_⟩, pop_overflow_breaks_inv _ hoff hlen hcap⟩
  · rw [hlen, hcap]
    norm_num
  · intro _
    rw [hoff, hcap]
    norm_num
  · intro h0
    rw [hcap] at h0
    norm_num at h0

/-! ## Claim C10 -/

/-- C10: in `dcarr_reduce_size`, under the shrink trigger
(`length * 4 ≤ capacity`, `capacity > 8`) and the data-model bounds
`offset < capacity`, `length ≤ capacity`, the halving loop returns at most
`capacity / 2`, and the guard of the middle relocation branch
(`offset < new_capacity` together with `old_capacity ≤ offset + length`) is
unsatisfiable — so the `memmove` with the wrapping unsigned element count
`new_capacity - old_capacity` is never executed. -/
theorem C10_middle_branch_unreachable (a : DcArr)
    (htrig : 4 * a.len ≤ a.cap) (hcap8 : 8 < a.cap) (hoff : a.off < a.cap)
    (hlen : a.len ≤ a.cap) :
    shrinkCapLoop 33 a.len a.cap ≤ a.cap / 2 ∧
      ¬ (a.off < shrinkCapLoop 33 a.len a.cap ∧ a.cap ≤ a.off + a.len) := by
  have h1 := shrinkCapLoop_le_half 32 a.len a.cap
  norm_num at h1
  refine ⟨h1, ?_⟩
  rintro ⟨hA, hB⟩
  omega

/-- Witness for C10 at the concrete state `cap = 16, off = 10, len = 4`. -/
theorem C10_middle_branch_unreachable_witness :
    4 * (DcArr.mk (fun _ => 0) 16 10 4).len ≤ (DcArr.mk (fun _ => 0) 16 10 4).cap ∧
      8 < (DcArr.mk (fun _ => 0) 16 10 4).cap ∧
      (DcArr.mk (fun _ => 0) 16 10 4).off < (DcArr.mk (fun _ => 0) 16 10 4).cap ∧
      (DcArr.mk (fun _ => 0) 16 10 4).len ≤ (DcArr.mk (fun _ => 0) 16 10 4).cap ∧
      (shrinkCapLoop 33 (DcArr.mk (fun _ => 0) 16 10 4).len
          (DcArr.mk (fun _ => 0) 16 10 4).cap ≤ (DcArr.mk (fun _ => 0) 16 10 4).cap / 2 ∧
        ¬ ((DcArr.mk (fun _ => 0) 16 10 4).off <
            shrinkCapLoop 33 (DcArr.mk (fun _ => 0) 16 10 4).len
              (DcArr.mk (fun _ => 0) 16 10 4).cap ∧
          (DcArr.mk (fun _ => 0) 16 10 4).cap ≤
            (DcArr.mk (fun _ => 0) 16 10 4).off + (DcArr.mk (fun _ => 0) 16 10 4).len)) :=
  ⟨by decide, by decide, by decide, by decide,
    C10_middle_branch_unreachable (DcArr.mk (fun _ => 0) 16 10 4)
      (by decide) (by decide) (by decide) (by decide)⟩

/-! ## Concrete operation sequences for claims C1, C4, C5 and C9 -/

/-- The demo program's fill loop: for `i = 0..14`, push when `i` is odd,
unshift when `i` is even. -/
def demoOps : List DOp :=
  (List.range 15).map fun i => if i % 2 = 1 then DOp.push (Int.ofNat i) else DOp.unshift (Int.ofNat i)

/-- The ascending comparator on `Int`, as a Boolean relation (the demo's
`int_cmp` order). -/
def intLeB : Int → Int → Bool := fun x y => decide (x ≤ y)

/-- Nine pushes of 1..9, one unshift of 100, then five pops: leaves the
wrapped state `cap = 16, off = 15, len = 5` with logical contents
`[100, 1, 2, 3, 4]`, one pop away from the shrink trigger. -/
def opsC4 : List DOp :=
  ((List.range 9).map fun i => DOp.push (Int.ofNat i + 1)) ++ [DOp.unshift 100] ++
    [DOp.pop, DOp.pop, DOp.pop, DOp.pop, DOp.pop]

/-- The same sequence followed by the pop that fires the shrink. -/
def opsC1 : List DOp := opsC4 ++ [DOp.pop]

/-! ## Claim C1 -/

/-- C1 evaluated at a failing sequence: 10 pushes/unshifts and 6 pops leave
`len = 10 - 6 = 4` as the claim predicts, but `get(1)` returns 0 (a stale
slot beyond the live region, copied in by the shrink relocation) while the
reference growable-sequence simulation holds 1 there: the refinement fails
on sequences whose final pop fires the shrink while the live range wraps. -/
theorem C1_refinement_fails :
    dcarr_len (runD dcarr_init opsC1) = 4 ∧
      runL [] opsC1 = [100, 1, 2, 3] ∧
      dcarr_elem (runD dcarr_init opsC1) 1 = 0 ∧
      (runL [] opsC1).getD 1 0 = 1 := by decide

/-! ## Claim C4 -/

/-- C4 evaluated at its failing input: the pop from the wrapped state
`cap = 16, off = 15, len = 5` (logical contents `[100, 1, 2, 3, 4]`) fires
the shrink trigger and the capacity strictly decreases, but the whole-range
`memcpy` of the first shrink branch reads past the live region, so `get(1)`
afterwards returns 0 instead of the previous element 1. -/
theorem C4_shrink_corrupts :
    (4 * ((runD dcarr_init opsC4).len - 1)) % 2 ^ 32 ≤ (runD dcarr_init opsC4).cap ∧
      8 < (runD dcarr_init opsC4).cap ∧
      (dcarr_pop (runD dcarr_init opsC4)).2.cap < (runD dcarr_init opsC4).cap ∧
      dcarr_elem (runD dcarr_init opsC4) 1 = 1 ∧
      dcarr_elem (dcarr_pop (runD dcarr_init opsC4)).2 1 = 0 := by decide

/-! ## Claim C5 -/

/-- C5 evaluated at its failing input: after four unshifts
(`cap = 8, off = 4, len = 4`, logical contents `[4, 3, 2, 1]`),
`insert(0, 100)` increments `len` and `get(0)` returns 100, but the suffix
`memmove` runs past the physical end of the buffer, so the old last element
(1, at logical index 3 before the insert) is lost: `get(4)` returns 0. -/
theorem C5_insert_wrap_corrupts :
    (dcarr_insert
        (runD dcarr_init [DOp.unshift 1, DOp.unshift 2, DOp.unshift 3, DOp.unshift 4])
        0 100).len = 5 ∧
      dcarr_elem (dcarr_insert
        (runD dcarr_init [DOp.unshift 1, DOp.unshift 2, DOp.unshift 3, DOp.unshift 4])
        0 100) 0 = 100 ∧
      dcarr_elem
        (runD dcarr_init [DOp.unshift 1, DOp.unshift 2, DOp.unshift 3, DOp.unshift 4])
        3 = 1 ∧
      dcarr_elem (dcarr_insert
        (runD dcarr_init [DOp.unshift 1, DOp.unshift 2, DOp.unshift 3, DOp.unshift 4])
        0 100) 4 = 0 := by decide

/-! ## Claim C9 -/

/-- Counterexample to C9 as stated: after the demo's fill loop,
`insert(9, 100)` does not produce the order
`14,12,10,8,6,4,2,0,1,3,5,7,9,100,11,13` claimed by the spec (which would
place 100 at logical index 13, between 9 and 11). -/
theorem C9_counterexample :
    dcarr_list (dcarr_insert (runD dcarr_init demoOps) 9 100) ≠
      [14, 12, 10, 8, 6, 4, 2, 0, 1, 3, 5, 7, 9, 100, 11, 13] := by decide

/-- C9 (amended): the fill loop yields `14,12,10,...,0,1,3,...,13`;
`insert(9, 100)` places 100 at logical index 9, between the 1 and the 3
(order `...,0,1,100,3,5,7,9,11,13`); sorting with the ascending integer
comparator yields `0,1,...,14,100`. -/
theorem C9_demo_scenario :
    dcarr_list (runD dcarr_init demoOps) =
        [14, 12, 10, 8, 6, 4, 2, 0, 1, 3, 5, 7, 9, 11, 13] ∧
      dcarr_list (dcarr_insert (runD dcarr_init demoOps) 9 100) =
        [14, 12, 10, 8, 6, 4, 2, 0, 1, 100, 3, 5, 7, 9, 11, 13] ∧
      dcarr_list (dcarr_sort (dcarr_insert (runD dcarr_init demoOps) 9 100) intLeB) =
        [0, 1, 2, 3, 4, 5, 6, 7, 8, 9, 10, 11, 12, 13, 14, 100] := by decide

/-! ## Claim C3 -/

/-- The full wrapped deque reached from `dcarr_init` by the demo's first
eight operations: `cap = 8, off = 4, len = 8`, physical buffer
`1,3,5,7,6,4,2,0` (logical order `6,4,2,0,1,3,5,7`). -/
def wrapState : DcArr :=
  DcArr.mk (fun k => ([1, 3, 5, 7, 6, 4, 2, 0] : List Int).getD k 0) 8 4 8

/-- Counterexample to C3 as stated: growing `wrapState` by one slot
relocates nothing to physical index `old_capacity = 8` — that slot is
zeroed by the `memset`, while the wrapped tail (`1,3,5,7` at physical
`[0,4)`) stays where it was.  So the wrapped tail does not come to occupy
`[old_capacity, old_capacity + tail_len)`. -/
theorem C3_counterexample :
    (dcarr_reserve wrapState 1).els 8 = 0 ∧ wrapState.els 0 = 1 ∧
      ¬ (∀ j, j < wrapState.off + wrapState.len - wrapState.cap →
          (dcarr_reserve wrapState 1).els (wrapState.cap + j) = wrapState.els j) := by
  decide

/-- C3 (amended): whenever `dcarr_reserve` grows the buffer while the
logical range wraps around the end of the old buffer
(`offset + length > old_capacity`), the head segment (physical
`[offset, old_capacity)`) is relocated to occupy
`[offset + (new_capacity - old_capacity), new_capacity)`, the wrapped tail
stays at `[0, offset + length - old_capacity)`, `offset` is advanced by
exactly `new_capacity - old_capacity`, and afterwards every logical index
`i < length` still reads the value it held before the growth. -/
theorem C3_reserve_wrap_relocation (a : DcArr) (n : ℕ)
    (hInv : DcInv a) (hcap : a.cap < 2 ^ 32) (hfit : a.len + n ≤ 2 ^ 30)
    (hgrow : a.cap < a.len + n) (hwrap : a.cap < a.off + a.len) :
    (dcarr_reserve a n).len = a.len ∧
      2 * a.cap ≤ (dcarr_reserve a n).cap ∧
      (dcarr_reserve a n).off = a.off + ((dcarr_reserve a n).cap - a.cap) ∧
      (∀ j, j < a.cap - a.off →
        (dcarr_reserve a n).els (a.off + ((dcarr_reserve a n).cap - a.cap) + j) =
          a.els (a.off + j)) ∧
      (∀ j, j < a.off + a.len - a.cap → (dcarr_reserve a n).els j = a.els j) ∧
      (∀ i, i < a.len → dcarr_elem (dcarr_reserve a n) i = dcarr_elem a i) := by
  obtain ⟨hlen, hpow, hoff, hzero⟩ := hInv
  have hcap0 : 0 < a.cap := by
    rcases Nat.eq_zero_or_pos a.cap with h0 | h0
    · obtain ⟨ho, hl⟩ := hzero h0
      omega
    · exact h0
  have hoff2 := hoff hcap0
  obtain ⟨k0, hk0⟩ : ∃ k0, a.cap = 2 ^ k0 := by
    rcases hpow with h0 | h
    · omega
    · exact h
  obtain ⟨⟨m, hm3, hm⟩, hge, hmono, htwice, h8, hlt⟩ :=
    growCap_spec (a.len + n) a.cap hpow hgrow hfit
  rw [dcarr_reserve_eq_wrap a n hgrow hwrap]
  refine ⟨rfl, htwice, rfl, ?_, ?_, ?_⟩
  · intro j hj
    show memset0 _ a.off (growCapLoop 33 (a.len + n) a.cap - a.cap)
        (a.off + (growCapLoop 33 (a.len + n) a.cap - a.cap) + j) = a.els (a.off + j)
    unfold memset0
    rw [if_neg (by omega)]
    unfold memmove
    rw [if_pos ⟨by omega, by omega⟩]
    congr 1
    omega
  · intro j hj
    show memset0 _ a.off (growCapLoop 33 (a.len + n) a.cap - a.cap) j = a.els j
    unfold memset0
    rw [if_neg (by omega)]
    unfold memmove
    rw [if_neg (by omega)]
  · intro i hi
    unfold dcarr_elem
    rw [dcarr_idx_eq_mod _ i m (by simpa using hm) (by simpa using hlt),
      dcarr_idx_eq_mod a i k0 hk0 hcap]
    show memset0 _ a.off (growCapLoop 33 (a.len + n) a.cap - a.cap)
        ((a.off + (growCapLoop 33 (a.len + n) a.cap - a.cap) + i) %
          growCapLoop 33 (a.len + n) a.cap) = a.els ((a.off + i) % a.cap)
    by_cases hhead : a.off + i < a.cap
    · have hmodC : (a.off + (growCapLoop 33 (a.len + n) a.cap - a.cap) + i) %
          growCapLoop 33 (a.len + n) a.cap =
          a.off + (growCapLoop 33 (a.len + n) a.cap - a.cap) + i :=
        Nat.mod_eq_of_lt (by omega)
      rw [hmodC, Nat.mod_eq_of_lt hhead]
      unfold memset0
      rw [if_neg (by omega)]
      unfold memmove
      rw [if_pos ⟨by omega, by omega⟩]
      congr 1
      omega
    · have hlt2 : a.off + i < 2 * a.cap := by omega
      have hmodc : (a.off + i) % a.cap = a.off + i - a.cap := by
        rw [Nat.mod_eq_sub_mod (by omega), Nat.mod_eq_of_lt (by omega)]
      have hmodC : (a.off + (growCapLoop 33 (a.len + n) a.cap - a.cap) + i) %
          growCapLoop 33 (a.len + n) a.cap = a.off + i - a.cap := by
        rw [Nat.mod_eq_sub_mod (by omega), Nat.mod_eq_of_lt (by omega)]
        omega
      rw [hmodC, hmodc]
      unfold memset0
      rw [if_neg (by omega)]
      unfold memmove
      rw [if_neg (by omega)]

/-- Witness for C3 at the concrete wrapped state `wrapState` with `n = 1`. -/
theorem C3_reserve_wrap_relocation_witness :
    DcInv wrapState ∧ wrapState.cap < 2 ^ 32 ∧ wrapState.len + 1 ≤ 2 ^ 30 ∧
      wrapState.cap < wrapState.len + 1 ∧ wrapState.cap < wrapState.off + wrapState.len ∧
      ((dcarr_reserve wrapState 1).len = wrapState.len ∧
        2 * wrapState.cap ≤ (dcarr_reserve wrapState 1).cap ∧
        (dcarr_reserve wrapState 1).off =
          wrapState.off + ((dcarr_reserve wrapState 1).cap - wrapState.cap) ∧
        (∀ j, j < wrapState.cap - wrapState.off →
          (dcarr_reserve wrapState 1).els
              (wrapState.off + ((dcarr_reserve wrapState 1).cap - wrapState.cap) + j) =
            wrapState.els (wrapState.off + j)) ∧
        (∀ j, j < wrapState.off + wrapState.len - wrapState.cap →
          (dcarr_reserve wrapState 1).els j = wrapState.els j) ∧
        (∀ i, i < wrapState.len →
          dcarr_elem (dcarr_reserve wrapState 1) i = dcarr_elem wrapState i)) :=
  have hInv : DcInv wrapState :=
    ⟨by decide, Or.inr ⟨3, by decide⟩, by decide, by decide⟩
  ⟨hInv, by decide, by decide, by decide, by decide,
    C3_reserve_wrap_relocation wrapState 1 hInv (by decide) (by decide)
      (by decide) (by decide)⟩

/-! ## Claim C6 -/

theorem dcarr_insert_fields_movedown (a : DcArr) (i : ℕ) (v : Int)
    (hi : i < (dcarr_reserve a 1).len)
    (hbr : (dcarr_reserve a 1).off < dcarr_idx (dcarr_reserve a 1) i ∧
      (dcarr_reserve a 1).off ≠ 0) :
    (dcarr_insert a i v).off = (dcarr_reserve a 1).off - 1 ∧
      (dcarr_insert a i v).cap = (dcarr_reserve a 1).cap ∧
      (dcarr_insert a i v).len = (dcarr_reserve a 1).len + 1 ∧
      (dcarr_insert a i v).els = writeAt
        (memmove (dcarr_reserve a 1).els ((dcarr_reserve a 1).off - 1)
          (dcarr_reserve a 1).off
          (dcarr_idx (dcarr_reserve a 1) i - (dcarr_reserve a 1).off))
        (((dcarr_reserve a 1).off - 1 + i) &&& dcarr_mask (dcarr_reserve a 1).cap) v := by
  unfold dcarr_insert
  dsimp only
  rw [if_pos hi, if_pos hbr]
  exact ⟨rfl, rfl, rfl, rfl⟩

theorem dcarr_insert_fields_moveup (a : DcArr) (i : ℕ) (v : Int)
    (hi : i < (dcarr_reserve a 1).len)
    (hbr : ¬ ((dcarr_reserve a 1).off < dcarr_idx (dcarr_reserve a 1) i ∧
      (dcarr_reserve a 1).off ≠ 0)) :
    (dcarr_insert a i v).off = (dcarr_reserve a 1).off ∧
      (dcarr_insert a i v).cap = (dcarr_reserve a 1).cap ∧
      (dcarr_insert a i v).len = (dcarr_reserve a 1).len + 1 ∧
      (dcarr_insert a i v).els = writeAt
        (memmove (dcarr_reserve a 1).els (dcarr_idx (dcarr_reserve a 1) i + 1)
          (dcarr_idx (dcarr_reserve a 1) i) ((dcarr_reserve a 1).len - i))
        (((dcarr_reserve a 1).off + i) &&& dcarr_mask (dcarr_reserve a 1).cap) v := by
  unfold dcarr_insert
  dsimp only
  rw [if_pos hi, if_neg hbr]
  exact ⟨rfl, rfl, rfl, rfl⟩

/-- C6: `dcarr_insert(i, v)` with `i < length` shifts the physical prefix
one slot toward the front — observable as the offset decrementing — exactly
when the target physical slot `(offset + i) mod capacity` is strictly
greater than `offset` and `offset ≠ 0` (offset and capacity taken after the
reserve step); in every other case — in particular whenever `offset = 0` —
it leaves the offset unchanged and instead shifts the suffix `[i, length)`
one physical slot toward the back. -/
theorem C6_insert_branch (a : DcArr) (i : ℕ) (v : Int)
    (hInv : DcInv a) (hcap : a.cap < 2 ^ 32) (hlen32 : 4 * a.len < 2 ^ 32)
    (hi : i < a.len) :
    ((dcarr_insert a i v).off + 1 = (dcarr_reserve a 1).off ↔
      ((dcarr_reserve a 1).off + i) % (dcarr_reserve a 1).cap > (dcarr_reserve a 1).off ∧
        (dcarr_reserve a 1).off ≠ 0) ∧
      (((dcarr_reserve a 1).off + i) % (dcarr_reserve a 1).cap > (dcarr_reserve a 1).off ∧
          (dcarr_reserve a 1).off ≠ 0 →
        (dcarr_insert a i v).off = (dcarr_reserve a 1).off - 1 ∧
          (∀ k, (dcarr_reserve a 1).off ≤ k →
            k + 1 < ((dcarr_reserve a 1).off + i) % (dcarr_reserve a 1).cap →
            (dcarr_insert a i v).els (k - 1) = (dcarr_reserve a 1).els k) ∧
          (dcarr_insert a i v).els
            (((dcarr_reserve a 1).off + i) % (dcarr_reserve a 1).cap - 1) = v) ∧
      (¬ (((dcarr_reserve a 1).off + i) % (dcarr_reserve a 1).cap > (dcarr_reserve a 1).off ∧
          (dcarr_reserve a 1).off ≠ 0) →
        (dcarr_insert a i v).off = (dcarr_reserve a 1).off ∧
          (∀ k, k < (dcarr_reserve a 1).len - i →
            (dcarr_insert a i v).els
                (((dcarr_reserve a 1).off + i) % (dcarr_reserve a 1).cap + 1 + k) =
              (dcarr_reserve a 1).els
                (((dcarr_reserve a 1).off + i) % (dcarr_reserve a 1).cap + k))) := by
  have hn : a.len + 1 ≤ 2 ^ 30 := by omega
  obtain ⟨hrInv, hrlen, hrge, hrmono, hrlt, hroffle⟩ := dcarr_reserve_spec a 1 hInv hcap hn
  obtain ⟨hrlencap, hrpow, hroff, hrzero⟩ := hrInv
  have hrcap0 : 0 < (dcarr_reserve a 1).cap := by omega
  have hroff2 := hroff hrcap0
  obtain ⟨m, hm⟩ : ∃ m, (dcarr_reserve a 1).cap = 2 ^ m := by
    rcases hrpow with h0 | h
    · omega
    · exact h
  have hidx : dcarr_idx (dcarr_reserve a 1) i =
      ((dcarr_reserve a 1).off + i) % (dcarr_reserve a 1).cap :=
    dcarr_idx_eq_mod _ i m hm hrlt
  have hmask : dcarr_mask (dcarr_reserve a 1).cap = (dcarr_reserve a 1).cap - 1 :=
    dcarr_mask_eq hrcap0 hrlt
  have hi' : i < (dcarr_reserve a 1).len := by omega
  have hicap : i < (dcarr_reserve a 1).cap := by omega
  by_cases hbr : ((dcarr_reserve a 1).off + i) % (dcarr_reserve a 1).cap >
      (dcarr_reserve a 1).off ∧ (dcarr_reserve a 1).off ≠ 0
  · have hnowrap : (dcarr_reserve a 1).off + i < (dcarr_reserve a 1).cap := by
      by_contra hge2
      have hlt2 : (dcarr_reserve a 1).off + i < 2 * (dcarr_reserve a 1).cap := by omega
      have : ((dcarr_reserve a 1).off + i) % (dcarr_reserve a 1).cap =
          (dcarr_reserve a 1).off + i - (dcarr_reserve a 1).cap := by
        rw [Nat.mod_eq_sub_mod (by omega), Nat.mod_eq_of_lt (by omega)]
      omega
    have hP : ((dcarr_reserve a 1).off + i) % (dcarr_reserve a 1).cap =
        (dcarr_reserve a 1).off + i := Nat.mod_eq_of_lt hnowrap
    obtain ⟨hf1, hf2, hf3, hf4⟩ := dcarr_insert_fields_movedown a i v hi'
      (by rw [hidx, hP]; exact ⟨by omega, hbr.2⟩)
    have hwidx : ((dcarr_reserve a 1).off - 1 + i) &&& dcarr_mask (dcarr_reserve a 1).cap =
        (dcarr_reserve a 1).off + i - 1 := by
      rw [hmask, hm, Nat.and_pow_two_sub_one_eq_mod, ← hm,
        Nat.mod_eq_of_lt (by omega)]
      omega
    refine ⟨⟨fun _ => hbr, fun _ => by omega⟩, fun _ => ⟨hf1, ?_, ?_⟩, fun hc => absurd hbr hc⟩
    · intro k hk1 hk2
      rw [hP] at hk2
      rw [hf4]
      unfold writeAt
      rw [hwidx]
      rw [if_neg (by omega)]
      unfold memmove
      rw [hidx, hP]
      rw [if_pos ⟨by omega, by omega⟩]
      have harg : (dcarr_reserve a 1).off +
          (k - 1 - ((dcarr_reserve a 1).off - 1)) = k := by omega
      rw [harg]
    · rw [hf4]
      unfold writeAt
      rw [hwidx, hP]
      rw [if_pos rfl]
  · obtain ⟨hf1, hf2, hf3, hf4⟩ := dcarr_insert_fields_moveup a i v hi'
      (by rw [hidx]; exact hbr)
    have hwidx : ((dcarr_reserve a 1).off + i) &&& dcarr_mask (dcarr_reserve a 1).cap =
        ((dcarr_reserve a 1).off + i) % (dcarr_reserve a 1).cap := by
      rw [hmask, hm, Nat.and_pow_two_sub_one_eq_mod, ← hm]
    refine ⟨⟨fun hcon => ?_, fun hc => absurd hc hbr⟩, fun hc => absurd hc hbr,
      fun _ => ⟨hf1, ?_⟩⟩
    · rw [hf1] at hcon
      omega
    · intro k hk
      rw [hf4]
      unfold writeAt
      rw [hwidx]
      rw [if_neg (by omega)]
      unfold memmove
      rw [hidx]
      rw [if_pos ⟨by omega, by omega⟩]
      rw [Nat.add_sub_cancel_left]

/-- Witness for C6 at the concrete state `cap = 8, off = 4, len = 4` with
`i = 2` (the prefix-shift branch fires). -/
theorem C6_insert_branch_witness :
    DcInv (DcArr.mk (fun _ => 5) 8 4 4) ∧
      (DcArr.mk (fun _ => 5) 8 4 4).cap < 2 ^ 32 ∧
      4 * (DcArr.mk (fun _ => 5) 8 4 4).len < 2 ^ 32 ∧ 2 < (DcArr.mk (fun _ => 5) 8 4 4).len ∧
      (((dcarr_insert (DcArr.mk (fun _ => 5) 8 4 4) 2 7).off + 1 =
          (dcarr_reserve (DcArr.mk (fun _ => 5) 8 4 4) 1).off ↔
        ((dcarr_reserve (DcArr.mk (fun _ => 5) 8 4 4) 1).off + 2) %
            (dcarr_reserve (DcArr.mk (fun _ => 5) 8 4 4) 1).cap >
          (dcarr_reserve (DcArr.mk (fun _ => 5) 8 4 4) 1).off ∧
          (dcarr_reserve (DcArr.mk (fun _ => 5) 8 4 4) 1).off ≠ 0) ∧
        (((dcarr_reserve (DcArr.mk (fun _ => 5) 8 4 4) 1).off + 2) %
            (dcarr_reserve (DcArr.mk (fun _ => 5) 8 4 4) 1).cap >
          (dcarr_reserve (DcArr.mk (fun _ => 5) 8 4 4) 1).off ∧
          (dcarr_reserve (DcArr.mk (fun _ => 5) 8 4 4) 1).off ≠ 0 →
          (dcarr_insert (DcArr.mk (fun _ => 5) 8 4 4) 2 7).off =
            (dcarr_reserve (DcArr.mk (fun _ => 5) 8 4 4) 1).off - 1 ∧
            (∀ k, (dcarr_reserve (DcArr.mk (fun _ => 5) 8 4 4) 1).off ≤ k →
              k + 1 < ((dcarr_reserve (DcArr.mk (fun _ => 5) 8 4 4) 1).off + 2) %
                (dcarr_reserve (DcArr.mk (fun _ => 5) 8 4 4) 1).cap →
              (dcarr_insert (DcArr.mk (fun _ => 5) 8 4 4) 2 7).els (k - 1) =
                (dcarr_reserve (DcArr.mk (fun _ => 5) 8 4 4) 1).els k) ∧
            (dcarr_insert (DcArr.mk (fun _ => 5) 8 4 4) 2 7).els
              (((dcarr_reserve (DcArr.mk (fun _ => 5) 8 4 4) 1).off + 2) %
                (dcarr_reserve (DcArr.mk (fun _ => 5) 8 4 4) 1).cap - 1) = 7) ∧
        (¬ (((dcarr_reserve (DcArr.mk (fun _ => 5) 8 4 4) 1).off + 2) %
            (dcarr_reserve (DcArr.mk (fun _ => 5) 8 4 4) 1).cap >
          (dcarr_reserve (DcArr.mk (fun _ => 5) 8 4 4) 1).off ∧
          (dcarr_reserve (DcArr.mk (fun _ => 5) 8 4 4) 1).off ≠ 0) →
          (dcarr_insert (DcArr.mk (fun _ => 5) 8 4 4) 2 7).off =
            (dcarr_reserve (DcArr.mk (fun _ => 5) 8 4 4) 1).off ∧
            (∀ k, k < (dcarr_reserve (DcArr.mk (fun _ => 5) 8 4 4) 1).len - 2 →
              (dcarr_insert (DcArr.mk (fun _ => 5) 8 4 4) 2 7).els
                  (((dcarr_reserve (DcArr.mk (fun _ => 5) 8 4 4) 1).off + 2) %
                    (dcarr_reserve (DcArr.mk (fun _ => 5) 8 4 4) 1).cap + 1 + k) =
                (dcarr_reserve (DcArr.mk (fun _ => 5) 8 4 4) 1).els
                  (((dcarr_reserve (DcArr.mk (fun _ => 5) 8 4 4) 1).off + 2) %
                    (dcarr_reserve (DcArr.mk (fun _ => 5) 8 4 4) 1).cap + k)))) :=
  have hInv : DcInv (DcArr.mk (fun _ => 5) 8 4 4) :=
    ⟨by decide, Or.inr ⟨3, by decide⟩, by decide, by decide⟩
  ⟨hInv, by decide, by decide, by decide,
    C6_insert_branch (DcArr.mk (fun _ => 5) 8 4 4) 2 7 hInv (by decide) (by decide)
      (by decide)⟩

/-! ## Claim C7 -/

theorem physList_length (els : ℕ → Int) (start count : ℕ) :
    (physList els start count).length = count := by
  simp [physList]

theorem physList_getElem (els : ℕ → Int) (start count j : ℕ)
    (h : j < (physList els start count).length) :
    (physList els start count)[j] = els (start + j) := by
  simp [physList]

theorem dcarr_list_eq_physList (b : DcArr) (m : ℕ) (hm : b.cap = 2 ^ m)
    (h32 : b.cap < 2 ^ 32) (hnw : b.off + b.len ≤ b.cap) :
    dcarr_list b = physList b.els b.off b.len := by
  unfold dcarr_list physList
  apply List.map_congr_left
  intro i hi
  rw [List.mem_range] at hi
  unfold dcarr_elem
  rw [dcarr_idx_eq_mod b i m hm h32, Nat.mod_eq_of_lt (by omega)]

theorem dcarr_list_length (b : DcArr) : (dcarr_list b).length = b.len := by
  simp [dcarr_list]

theorem dcarr_list_getElem (b : DcArr) (i : ℕ) (h : i < (dcarr_list b).length) :
    (dcarr_list b)[i] = dcarr_elem b i := by
  simp [dcarr_list]

theorem dcarr_list_wrap (b : DcArr) (m : ℕ) (hm : b.cap = 2 ^ m)
    (h32 : b.cap < 2 ^ 32) (hoff : b.off < b.cap) (hlen : b.len ≤ b.cap)
    (hw : b.cap < b.off + b.len) :
    dcarr_list b =
      physList b.els b.off (b.cap - b.off) ++ physList b.els 0 (b.off + b.len - b.cap) := by
  have hl1 : (physList b.els b.off (b.cap - b.off)).length = b.cap - b.off :=
    physList_length _ _ _
  apply List.ext_getElem
  · rw [dcarr_list_length, List.length_append, physList_length, physList_length]
    omega
  · intro i h1 h2
    have hi : i < b.len := by rw [dcarr_list_length] at h1; exact h1
    rw [dcarr_list_getElem]
    rw [List.getElem_append]
    by_cases hlo : i < b.cap - b.off
    · rw [dif_pos (by rw [hl1]; omega)]
      rw [physList_getElem]
      unfold dcarr_elem
      rw [dcarr_idx_eq_mod b i m hm h32, Nat.mod_eq_of_lt (by omega)]
    · rw [dif_neg (by rw [hl1]; omega)]
      rw [physList_getElem]
      rw [hl1]
      unfold dcarr_elem
      rw [dcarr_idx_eq_mod b i m hm h32]
      have hmod : (b.off + i) % b.cap = b.off + i - b.cap := by
        rw [Nat.mod_eq_sub_mod (by omega), Nat.mod_eq_of_lt (by omega)]
      rw [hmod]
      congr 1
      omega

theorem compact_physList (a : DcArr) (hoff : a.off ≤ a.cap) (hlen : a.len ≤ a.cap)
    (hw : a.cap < a.off + a.len) :
    physList (memmove a.els (a.off + a.len - a.cap) a.off (a.cap - a.off)) 0 a.len =
      physList a.els 0 (a.off + a.len - a.cap) ++
        physList a.els a.off (a.cap - a.off) := by
  have hl1 : (physList a.els 0 (a.off + a.len - a.cap)).length = a.off + a.len - a.cap :=
    physList_length _ _ _
  apply List.ext_getElem
  · rw [physList_length, List.length_append, physList_length, physList_length]
    omega
  · intro i h1 h2
    have hi : i < a.len := by rw [physList_length] at h1; exact h1
    rw [physList_getElem]
    rw [List.getElem_append]
    by_cases hlo : i < a.off + a.len - a.cap
    · rw [dif_pos (by rw [hl1]; omega)]
      rw [physList_getElem]
      show memmove a.els (a.off + a.len - a.cap) a.off (a.cap - a.off) (0 + i) =
        a.els (0 + i)
      unfold memmove
      rw [if_neg (by omega)]
    · rw [dif_neg (by rw [hl1]; omega)]
      rw [physList_getElem]
      rw [hl1]
      show memmove a.els (a.off + a.len - a.cap) a.off (a.cap - a.off) (0 + i) =
        a.els (a.off + (i - (a.off + a.len - a.cap)))
      unfold memmove
      rw [if_pos ⟨by omega, by omega⟩]
      congr 1
      omega

theorem dcarr_list_writeback (cels : ℕ → Int) (sl : List Int)
    (cap off0 L m : ℕ) (hm : cap = 2 ^ m) (h32 : cap < 2 ^ 32)
    (hL : sl.length = L) (hfit : off0 + L ≤ cap) :
    dcarr_list (DcArr.mk
      (fun k => if off0 ≤ k ∧ k < off0 + L then sl.getD (k - off0) 0 else cels k)
      cap off0 L) = sl := by
  apply List.ext_getElem
  · unfold dcarr_list
    simp [hL]
  · intro i h1 h2
    unfold dcarr_list
    rw [List.getElem_map, List.getElem_range]
    unfold dcarr_elem
    rw [dcarr_idx_eq_mod _ _ m hm h32]
    show (fun k => if off0 ≤ k ∧ k < off0 + L then sl.getD (k - off0) 0 else cels k)
        ((off0 + i) % cap) = sl[i]
    have hi : i < L := by
      unfold dcarr_list at h1
      simpa using h1
    rw [Nat.mod_eq_of_lt (by omega)]
    simp only
    rw [if_pos ⟨by omega, by omega⟩, Nat.add_sub_cancel_left]
    exact List.getD_eq_getElem sl 0 (by omega)

theorem dcarr_sort_eq_wrap (a : DcArr) (le : Int → Int → Bool)
    (hw : a.cap < a.off + a.len) :
    dcarr_sort a le = DcArr.mk
      (fun k => if 0 ≤ k ∧ k < 0 + a.len then
        ((physList (memmove a.els (a.off + a.len - a.cap) a.off (a.cap - a.off))
            0 a.len).insertionSort (fun x y => le x y = true)).getD (k - 0) 0
        else memmove a.els (a.off + a.len - a.cap) a.off (a.cap - a.off) k)
      a.cap 0 a.len := by
  unfold dcarr_sort
  dsimp only
  rw [if_pos hw]

theorem dcarr_sort_eq_nowrap (a : DcArr) (le : Int → Int → Bool)
    (hw : ¬ a.cap < a.off + a.len) :
    dcarr_sort a le = DcArr.mk
      (fun k => if a.off ≤ k ∧ k < a.off + a.len then
        ((physList a.els a.off a.len).insertionSort
          (fun x y => le x y = true)).getD (k - a.off) 0
        else a.els k)
      a.cap a.off a.len := by
  unfold dcarr_sort
  dsimp only
  rw [if_neg hw]

/-- C7: for every comparator `le` that is transitive and total,
`dcarr_sort` leaves the length unchanged, sets `offset = 0` whenever the
logical range wrapped past the end of the physical buffer before the call
(after compacting the range into one contiguous physical run), and
afterwards the logical contents `get(0), ..., get(length-1)` are a sorted
permutation (per `le`) of the deque's previous contents — including when
the range wrapped before the call. -/
theorem C7_sort_spec (a : DcArr) (le : Int → Int → Bool)
    (hInv : DcInv a) (hcap : a.cap < 2 ^ 32)
    (htrans : ∀ x y z, le x y = true → le y z = true → le x z = true)
    (htotal : ∀ x y, le x y = true ∨ le y x = true) :
    (dcarr_sort a le).len = a.len ∧
      (a.cap < a.off + a.len → (dcarr_sort a le).off = 0) ∧
      List.Sorted (fun x y => le x y = true) (dcarr_list (dcarr_sort a le)) ∧
      (dcarr_list (dcarr_sort a le)).Perm (dcarr_list a) := by
  obtain ⟨hlen, hpow, hoff, hzero⟩ := hInv
  haveI hTot : IsTotal Int (fun x y => le x y = true) := ⟨htotal⟩
  haveI hTrans : IsTrans Int (fun x y => le x y = true) := ⟨htrans⟩
  by_cases hw : a.cap < a.off + a.len
  · have hcap0 : 0 < a.cap := by
      rcases Nat.eq_zero_or_pos a.cap with h0 | h0
      · obtain ⟨ho, hl⟩ := hzero h0
        omega
      · exact h0
    obtain ⟨m, hm⟩ : ∃ m, a.cap = 2 ^ m := by
      rcases hpow with h0 | h
      · omega
      · exact h
    have hoff2 := hoff hcap0
    rw [dcarr_sort_eq_wrap a le hw]
    have hsl : ((physList (memmove a.els (a.off + a.len - a.cap) a.off (a.cap - a.off))
        0 a.len).insertionSort (fun x y => le x y = true)).length = a.len := by
      rw [List.length_insertionSort, physList_length]
    have hwb := dcarr_list_writeback
      (memmove a.els (a.off + a.len - a.cap) a.off (a.cap - a.off))
      ((physList (memmove a.els (a.off + a.len - a.cap) a.off (a.cap - a.off))
          0 a.len).insertionSort (fun x y => le x y = true))
      a.cap 0 a.len m hm hcap hsl (by omega)
    refine ⟨rfl, fun _ => rfl, ?_, ?_⟩
    · rw [hwb]
      exact List.sorted_insertionSort _ _
    · rw [hwb]
      have hp1 := List.perm_insertionSort (fun x y => le x y = true)
        (physList (memmove a.els (a.off + a.len - a.cap) a.off (a.cap - a.off)) 0 a.len)
      rw [dcarr_list_wrap a m hm hcap hoff2 hlen hw]
      refine hp1.trans ?_
      rw [compact_physList a (le_of_lt hoff2) hlen hw]
      exact List.perm_append_comm
  · rw [dcarr_sort_eq_nowrap a le hw]
    rcases hpow with h0 | ⟨m, hm⟩
    · obtain ⟨ho, hl⟩ := hzero h0
      have hempty : ∀ f : ℕ → Int, ∀ c o : ℕ,
          dcarr_list (DcArr.mk f c o a.len) = [] := by
        intro f c o
        unfold dcarr_list
        rw [show (DcArr.mk f c o a.len).len = a.len from rfl, hl]
        rfl
      refine ⟨rfl, fun hww => absurd hww hw, ?_, ?_⟩
      · rw [hempty]
        exact List.sorted_nil
      · rw [hempty]
        have : dcarr_list a = [] := by
          unfold dcarr_list
          rw [hl]
          rfl
        rw [this]
    · have hsl : ((physList a.els a.off a.len).insertionSort
          (fun x y => le x y = true)).length = a.len := by
        rw [List.length_insertionSort, physList_length]
      have hwb := dcarr_list_writeback a.els
        ((physList a.els a.off a.len).insertionSort (fun x y => le x y = true))
        a.cap a.off a.len m hm hcap hsl (by omega)
      refine ⟨rfl, fun hww => absurd hww hw, ?_, ?_⟩
      · rw [hwb]
        exact List.sorted_insertionSort _ _
      · rw [hwb]
        rw [dcarr_list_eq_physList a m hm hcap (by omega)]
        exact List.perm_insertionSort _ _

/-- Witness for C7 at a concrete wrapped deque (`cap = 8, off = 6, len = 4`,
logical contents `[40, 20, 30, 10]`) with the ascending integer
comparator. -/
theorem C7_sort_spec_witness :
    DcInv (DcArr.mk (fun k => ([30, 10, 0, 0, 0, 0, 40, 20] : List Int).getD k 0) 8 6 4) ∧
      (DcArr.mk (fun k => ([30, 10, 0, 0, 0, 0, 40, 20] : List Int).getD k 0) 8 6 4).cap <
        2 ^ 32 ∧
      ((dcarr_sort (DcArr.mk (fun k => ([30, 10, 0, 0, 0, 0, 40, 20] : List Int).getD k 0)
          8 6 4) intLeB).len =
        (DcArr.mk (fun k => ([30, 10, 0, 0, 0, 0, 40, 20] : List Int).getD k 0) 8 6 4).len ∧
      ((DcArr.mk (fun k => ([30, 10, 0, 0, 0, 0, 40, 20] : List Int).getD k 0) 8 6 4).cap <
          (DcArr.mk (fun k => ([30, 10, 0, 0, 0, 0, 40, 20] : List Int).getD k 0) 8 6 4).off +
          (DcArr.mk (fun k => ([30, 10, 0, 0, 0, 0, 40, 20] : List Int).getD k 0) 8 6 4).len →
        (dcarr_sort (DcArr.mk (fun k => ([30, 10, 0, 0, 0, 0, 40, 20] : List Int).getD k 0)
          8 6 4) intLeB).off = 0) ∧
      List.Sorted (fun x y => intLeB x y = true)
        (dcarr_list (dcarr_sort
          (DcArr.mk (fun k => ([30, 10, 0, 0, 0, 0, 40, 20] : List Int).getD k 0) 8 6 4)
          intLeB)) ∧
      (dcarr_list (dcarr_sort
          (DcArr.mk (fun k => ([30, 10, 0, 0, 0, 0, 40, 20] : List Int).getD k 0) 8 6 4)
          intLeB)).Perm
        (dcarr_list
          (DcArr.mk (fun k => ([30, 10, 0, 0, 0, 0, 40, 20] : List Int).getD k 0) 8 6 4))) :=
  have hInv : DcInv (DcArr.mk (fun k => ([30, 10, 0, 0, 0, 0, 40, 20] : List Int).getD k 0)
      8 6 4) := ⟨by decide, Or.inr ⟨3, by decide⟩, by decide, by decide⟩
  ⟨hInv, by decide,
    C7_sort_spec (DcArr.mk (fun k => ([30, 10, 0, 0, 0, 0, 40, 20] : List Int).getD k 0) 8 6 4)
      intLeB hInv (by decide)
      (fun x y z h1 h2 => by
        simp only [intLeB, decide_eq_true_eq] at h1 h2 ⊢
        omega)
      (fun x y => by
        simp only [intLeB, decide_eq_true_eq]
        omega)⟩

/-! ## Claim C8 -/

/-- C8 (intended semantics of the brace-repaired macro): for `new_len ≤
length`, `dcarr_resize` is exactly "truncate `length` to `new_len`, then
run the shrink check", and — when the live range does not wrap around the
capacity boundary, so the shrink relocation is faithful — the elements at
logical indices below `new_len` are unchanged. -/
theorem C8_resize_truncate (a : DcArr) (m : ℕ)
    (hInv : DcInv a) (hcap : a.cap < 2 ^ 32) (hlen32 : 4 * a.len < 2 ^ 32)
    (hm : m ≤ a.len) (hnw : a.off + a.len ≤ a.cap) :
    dcarr_resize a m = dcarr_reduce_size { a with len := m } ∧
      (dcarr_resize a m).len = m ∧
      (∀ i, i < m → dcarr_elem (dcarr_resize a m) i = dcarr_elem a i) := by
  have hres : dcarr_resize a m = dcarr_reduce_size { a with len := m } := by
    unfold dcarr_resize
    dsimp only
    rw [if_neg (by omega)]
  have hInv1 : DcInv { a with len := m } := by
    refine ⟨?_, hInv.2.1, hInv.2.2.1, ?_⟩
    · show m ≤ a.cap
      have := hInv.1
      omega
    · intro h0
      have h0x : a.cap = 0 := h0
      have hz := hInv.2.2.2 h0x
      have h1x := hInv.1
      refine ⟨hz.1, ?_⟩
      show m = 0
      omega
  refine ⟨hres, ?_, ?_⟩
  · rw [hres, dcarr_reduce_size_len]
  · intro i hi
    rw [hres]
    have hpres := dcarr_reduce_elem_nowrap { a with len := m } hInv1
      (show ({ a with len := m } : DcArr).cap < 2 ^ 32 from hcap)
      (show 4 * ({ a with len := m } : DcArr).len < 2 ^ 32 by show 4 * m < 2 ^ 32; omega)
      (show ({ a with len := m } : DcArr).off + ({ a with len := m } : DcArr).len ≤
        ({ a with len := m } : DcArr).cap by show a.off + m ≤ a.cap; omega)
    exact (hpres i hi).trans rfl

/-- Witness for C8 at the concrete state `cap = 8, off = 2, len = 5`
truncated to 3. -/
theorem C8_resize_truncate_witness :
    DcInv (DcArr.mk (fun _ => 9) 8 2 5) ∧
      (DcArr.mk (fun _ => 9) 8 2 5).cap < 2 ^ 32 ∧
      4 * (DcArr.mk (fun _ => 9) 8 2 5).len < 2 ^ 32 ∧
      3 ≤ (DcArr.mk (fun _ => 9) 8 2 5).len ∧
      (DcArr.mk (fun _ => 9) 8 2 5).off + (DcArr.mk (fun _ => 9) 8 2 5).len ≤
        (DcArr.mk (fun _ => 9) 8 2 5).cap ∧
      (dcarr_resize (DcArr.mk (fun _ => 9) 8 2 5) 3 =
          dcarr_reduce_size { DcArr.mk (fun _ => 9) 8 2 5 with len := 3 } ∧
        (dcarr_resize (DcArr.mk (fun _ => 9) 8 2 5) 3).len = 3 ∧
        (∀ i, i < 3 → dcarr_elem (dcarr_resize (DcArr.mk (fun _ => 9) 8 2 5) 3) i =
          dcarr_elem (DcArr.mk (fun _ => 9) 8 2 5) i)) :=
  have hInv : DcInv (DcArr.mk (fun _ => 9) 8 2 5) :=
    ⟨by decide, Or.inr ⟨3, by decide⟩, by decide, by decide⟩
  ⟨hInv, by decide, by decide, by decide, by decide,
    C8_resize_truncate (DcArr.mk (fun _ => 9) 8 2 5) 3 hInv (by decide) (by decide)
      (by decide) (by decide)⟩
